import Mathlib

/-!
A shallow embedding, in Lean 4, of the core of the knowledge-graph construction
pipeline (file parsing / preprocessing / entity alignment / relation adjustment /
TransE completion / Neo4j persistence / progress reporting), translated from the
Python sources under `app/service/kg_service.py` and `app/algorithm/...`.

Conventions used throughout:
* Python strings are Lean `String`s; `str.islower`, `str.upper` and friends are
  modelled with Lean's ASCII case functions (all inputs appearing in concrete
  theorems are ASCII).
* Python dicts appearing as records (entities) are Lean structures; dicts used
  as finite maps are association lists.
* Floating-point quantities that only ever feed comparisons (embedding
  distances, similarity scores) are abstracted as `ℚ`-valued parameters; the
  MD5 word hash is abstracted as a `String → ℕ` parameter.  All theorems are
  stated uniformly in these parameters, so nothing depends on a particular
  instantiation.
-/

namespace KG

/-- Relation triple `(head_id, relation, tail_id)`, as the tuples flowing
through the pipeline. -/
abbrev Triple := String × String × String

/-- Entity dict as produced by extraction/alignment: `id`, `name`, `type`,
further attributes, and the optional `merged_ids` key added by alignment. -/
structure Entity where
  id : String
  name : String
  type : String
  attrs : List (String × String) := []
  mergedIds : Option (List String) := none
deriving Repr, DecidableEq

/-! ## Sanitization for Neo4j labels (`KGService._clean_for_neo4j`) -/

/-- Characters matched by the character class in
`re.sub(r'[\\/:"*?<>|]+', '_', value)` of `KGService._clean_for_neo4j`. -/
def isNeoBadChar (c : Char) : Bool :=
  c = '\\' || c = '/' || c = ':' || c = '"' || c = '*' || c = '?' ||
    c = '<' || c = '>' || c = '|'

theorem lengthDropWhileLe {α : Type} (p : α → Bool) :
    (l : List α) → (l.dropWhile p).length ≤ l.length
  | [] => le_refl _
  | a :: l => by
      rw [List.dropWhile_cons]
      split
      · exact Nat.le_succ_of_le (lengthDropWhileLe p l)
      · exact le_refl _

/-- Model of `re.sub(r'[\\/:"*?<>|]+', '_', value)`: every maximal run of
forbidden characters is replaced by a single underscore.  The scan keeps a
flag recording whether it is inside a run whose underscore has already been
emitted. -/
def collapseBadRuns : Bool → List Char → List Char
  | _, [] => []
  | inRun, c :: rest =>
    if isNeoBadChar c then
      if inRun then collapseBadRuns true rest
      else '_' :: collapseBadRuns true rest
    else c :: collapseBadRuns false rest

/-- Alternative formulation of the same substitution, mirroring the regex
more literally: replace each maximal run by skipping it with `dropWhile`.
Proven equal to `collapseBadRuns false` below. -/
def subBadRuns : List Char → List Char
  | [] => []
  | c :: rest =>
    if isNeoBadChar c then '_' :: subBadRuns (rest.dropWhile isNeoBadChar)
    else c :: subBadRuns rest
termination_by l => l.length
decreasing_by
  all_goals simp only [List.length_cons]
  · exact Nat.lt_succ_of_le (lengthDropWhileLe _ _)
  · exact Nat.lt_succ_self _

/-- Characters removed from both ends by Python's `str.strip('_ ')`. -/
def isStripChar (c : Char) : Bool := c = '_' || c = ' '

/-- Model of `cleaned.strip('_ ')`: drop underscores and spaces from both ends. -/
def stripEnds (l : List Char) : List Char :=
  ((l.dropWhile isStripChar).reverse.dropWhile isStripChar).reverse

/-- Model of `KGService._clean_for_neo4j`: empty input or empty cleaned result
falls back to `"Unknown"`; otherwise runs of forbidden characters are collapsed
to `_` and underscores/spaces are stripped from the ends. -/
def clean_for_neo4j (value : String) : String :=
  if value = "" then "Unknown"
  else
    let cleaned := stripEnds (collapseBadRuns false value.toList)
    if cleaned = [] then "Unknown" else String.mk cleaned

/-- Model of the first-letter fix-up applied to entity labels in
`KGService._save_to_neo4j`:
`if safe_type and safe_type[0].islower(): safe_type = safe_type[0].upper() + safe_type[1:]`. -/
def upperFirstIfLower (s : String) : String :=
  match s.toList with
  | [] => s
  | c :: rest => if c.isLower then String.mk (c.toUpper :: rest) else s

/-- Node label persisted for an entity type string (`_save_to_neo4j`, entity loop). -/
def entityLabel (entityType : String) : String :=
  upperFirstIfLower (clean_for_neo4j entityType)

/-- Python `str.upper()` on the ASCII fragment: uppercase every character. -/
def strUpper (s : String) : String := String.mk (s.toList.map Char.toUpper)

/-- Relationship type persisted for a relation string
(`safe_rel_type = self._clean_for_neo4j(rel_type).upper()`). -/
def relationLabel (relType : String) : String :=
  strUpper (clean_for_neo4j relType)

/-- Sanitizer written from the specification text of the sanitization claim:
each forbidden character is replaced by an underscore individually, the ends
are trimmed of underscores and spaces, and an empty result falls back to the
label `"Entity"`. -/
def sanitizeSpecClaim (value : String) : String :=
  let replaced := value.toList.map (fun c => if isNeoBadChar c then '_' else c)
  let trimmed := stripEnds replaced
  if trimmed = [] then "Entity" else String.mk trimmed

/-- Entity label as the specification claim describes it. -/
def entityLabelSpecClaim (t : String) : String :=
  upperFirstIfLower (sanitizeSpecClaim t)

/-- Amended sanitizer, written from the corrected description of the claim:
each maximal run of forbidden characters is replaced by one underscore (the
`dropWhile` formulation), ends are stripped of underscores and spaces, and an
empty input or empty result falls back to `"Unknown"`. -/
def sanitizeAmended (value : String) : String :=
  if value = "" then "Unknown"
  else
    let trimmed := stripEnds (subBadRuns value.toList)
    if trimmed = [] then "Unknown" else String.mk trimmed

theorem subBadRuns_eq_collapse (l : List Char) :
    subBadRuns l = collapseBadRuns false l ∧
      subBadRuns (l.dropWhile isNeoBadChar) = collapseBadRuns true l := by
  induction l with
  | nil => constructor <;> simp [subBadRuns, collapseBadRuns]
  | cons c rest ih =>
    by_cases h : isNeoBadChar c = true
    · constructor
      · simp [subBadRuns, collapseBadRuns, h, ih.2]
      · simp [List.dropWhile_cons, collapseBadRuns, h, ih.2]
    · constructor
      · simp [subBadRuns, collapseBadRuns, h, ih.1]
      · simp [List.dropWhile_cons, subBadRuns, collapseBadRuns, h, ih.1]

/-- Pointwise agreement of the source sanitizer with the amended sanitizer. -/
theorem clean_for_neo4j_eq_amended (value : String) :
    clean_for_neo4j value = sanitizeAmended value := by
  unfold clean_for_neo4j sanitizeAmended
  rw [(subBadRuns_eq_collapse value.toList).1]

theorem clean_for_neo4j_ne_empty (value : String) : clean_for_neo4j value ≠ "" := by
  unfold clean_for_neo4j
  split
  · intro h; exact absurd h (by decide)
  · dsimp only
    split
    · intro h; exact absurd h (by decide)
    · next h =>
        intro hs
        exact h (by simpa [String.ext_iff] using hs)

/-- C6 counterexample: the sanitization claim fails on the code.  On the type
string `"?"` the code's sanitizer falls back to `"Unknown"` where the claim
demands the fallback label `"Entity"`; on `"a\\b"` (one backslash) followed by
a second backslash, i.e. the four-character string a, backslash, backslash, b,
the code collapses the run of forbidden characters to a single underscore
where the claim's per-character replacement yields two. -/
theorem sanitize_fallback_counterexample :
    entityLabel "?" = "Unknown" ∧ entityLabelSpecClaim "?" = "Entity" ∧
      entityLabel "?" ≠ entityLabelSpecClaim "?" ∧
      entityLabel "a\\\\b" = "A_b" ∧ entityLabelSpecClaim "a\\\\b" = "A__b" ∧
      entityLabel "a\\\\b" ≠ entityLabelSpecClaim "a\\\\b" := by
  decide

/-- C6 (amended): for every entity type string the persisted node label is the
sanitized string — maximal runs of the characters backslash, slash, colon,
double quote, asterisk, question mark, angle brackets and pipe collapsed to a
single underscore, underscores and spaces stripped from both ends, falling
back to `"Unknown"` when the input or the result is empty — with a lowercase
first letter uppercased; relation types are sanitized the same way and then
fully uppercased. -/
theorem sanitize_amended_agrees (t r : String) :
    entityLabel t = upperFirstIfLower (sanitizeAmended t) ∧
      relationLabel r = strUpper (sanitizeAmended r) := by
  constructor
  · rw [entityLabel, clean_for_neo4j_eq_amended]
  · rw [relationLabel, clean_for_neo4j_eq_amended]

/-! ## Graph writer (`KGService._save_to_neo4j`)

Each `session.run` of the persist protocol becomes one `NeoOp`:
* `mergeUser u` — `MERGE (u:User {id: $user_id})`;
* `mergeEntity L id name kg u` — `MERGE (e:L {id: $id}) SET e.name = $name,
  e.kg_id = $kg_id MERGE (u:User {id: $user_id})-[:OWNS]->(e)`;
* `mergeRel R s o kg` — `MATCH (s {id: $subj_id, kg_id: $kg_id})
  MATCH (o {id: $obj_id, kg_id: $kg_id}) MERGE (s)-[:R]->(o)`.
-/

inductive NeoOp where
  | mergeUser (userId : String)
  | mergeEntity (label : String) (entId : String) (entName : String)
      (kgId : String) (userId : String)
  | mergeRel (relType : String) (subjId : String) (objId : String) (kgId : String)
deriving Repr, DecidableEq

/-- Model of the body of `KGService._save_to_neo4j`: the user merge, then one
entity statement per entity (in list order), then one relation statement per
triple whose sanitized relation type is non-empty (in list order).  Entity
dicts reach this function with their `id`, `name` and `type` keys populated,
so the `.get` defaults of the source are not modelled separately. -/
def save_to_neo4j (userId : String) (entities : List Entity)
    (relations : List Triple) (kgId : String) : List NeoOp :=
  NeoOp.mergeUser userId ::
    (entities.map (fun e => NeoOp.mergeEntity (entityLabel e.type) e.id e.name kgId userId) ++
      relations.filterMap (fun t =>
        if relationLabel t.2.1 ≠ "" then
          some (NeoOp.mergeRel (relationLabel t.2.1) t.1 t.2.2 kgId)
        else none))

/-- Property-graph node: label, `id` property, `name` property, optional
`kg_id` property. -/
structure NeoNode where
  label : String
  nid : String
  nodeName : String
  kgId : Option String
deriving Repr, DecidableEq

/-- Property-graph relationship, with the endpoints identified by label and
`id` property. -/
structure NeoEdge where
  relType : String
  subjLabel : String
  subjId : String
  objLabel : String
  objId : String
deriving Repr, DecidableEq

/-- Property-graph state: User node ids, entity nodes, `OWNS` edges
`(user id, node label, node id)`, and typed relationships. -/
structure NeoGraph where
  users : List String
  nodes : List NeoNode
  owns : List (String × String × String)
  edges : List NeoEdge
deriving Repr, DecidableEq

/-- Row set of the relationship `MERGE`: all endpoint pairs produced by
`MATCH (s {id: $subj_id, kg_id: $kg_id}) MATCH (o {id: $obj_id, kg_id: $kg_id})`,
matching on the two properties and any label. -/
def relPairs (g : NeoGraph) (R s o kg : String) : List NeoEdge :=
  g.nodes.flatMap (fun n1 =>
    if n1.nid = s ∧ n1.kgId = some kg then
      g.nodes.filterMap (fun n2 =>
        if n2.nid = o ∧ n2.kgId = some kg then
          some (⟨R, n1.label, n1.nid, n2.label, n2.nid⟩ : NeoEdge)
        else none)
    else [])

/-- Relationship `MERGE` on one matched row: add the edge unless present. -/
def addEdge (es : List NeoEdge) (ed : NeoEdge) : List NeoEdge :=
  if ed ∈ es then es else es ++ [ed]

/-- Semantics of a single Cypher statement of the persist protocol.
`MERGE` on a node pattern matches on label plus `id` and creates on miss;
`SET` forces `name` and `kg_id` on every match; the relationship `MERGE`
matches its endpoints by `id` and `kg_id` (any label) and adds the edge
unless it already exists. -/
def applyOp (g : NeoGraph) : NeoOp → NeoGraph
  | .mergeUser u =>
      if u ∈ g.users then g else { g with users := g.users ++ [u] }
  | .mergeEntity L nid nm kg uid =>
      let matched := g.nodes.any (fun n => decide (n.label = L ∧ n.nid = nid))
      let nodes2 :=
        if matched then
          g.nodes.map (fun n =>
            if n.label = L ∧ n.nid = nid then { n with nodeName := nm, kgId := some kg }
            else n)
        else g.nodes ++ [⟨L, nid, nm, some kg⟩]
      let owns2 := if (uid, L, nid) ∈ g.owns then g.owns else g.owns ++ [(uid, L, nid)]
      { g with nodes := nodes2, owns := owns2 }
  | .mergeRel R s o kg =>
      { g with edges := (relPairs g R s o kg).foldl addEdge g.edges }

/-- Run a statement list left to right in one session. -/
def applyOps (g : NeoGraph) (ops : List NeoOp) : NeoGraph := ops.foldl applyOp g

/-- There is a node with the given label and id carrying the given `kg_id`. -/
def hasKgNode (kg L nid : String) (g : NeoGraph) : Prop :=
  ∃ n ∈ g.nodes, n.label = L ∧ n.nid = nid ∧ n.kgId = some kg

/-- Statements of a job with graph id `kg` never write another `kg_id` onto a
node: user merges and relation merges do not touch node properties, entity
merges of this job set `kg_id = kg`. -/
def opPreservesKg (kg : String) : NeoOp → Prop
  | .mergeUser _ => True
  | .mergeEntity _ _ _ k _ => k = kg
  | .mergeRel _ _ _ _ => True

theorem applyOps_append (g : NeoGraph) (l1 l2 : List NeoOp) :
    applyOps g (l1 ++ l2) = applyOps (applyOps g l1) l2 :=
  List.foldl_append _ _ _ _

theorem applyOp_mergeUser_nodes (g : NeoGraph) (u : String) :
    (applyOp g (NeoOp.mergeUser u)).nodes = g.nodes := by
  simp only [applyOp]; split <;> rfl

theorem applyOp_mergeUser_owns (g : NeoGraph) (u : String) :
    (applyOp g (NeoOp.mergeUser u)).owns = g.owns := by
  simp only [applyOp]; split <;> rfl

theorem applyOp_mergeUser_edges (g : NeoGraph) (u : String) :
    (applyOp g (NeoOp.mergeUser u)).edges = g.edges := by
  simp only [applyOp]; split <;> rfl

theorem applyOp_mergeRel_nodes (g : NeoGraph) (R s o k : String) :
    (applyOp g (NeoOp.mergeRel R s o k)).nodes = g.nodes := rfl

theorem applyOp_mergeRel_owns (g : NeoGraph) (R s o k : String) :
    (applyOp g (NeoOp.mergeRel R s o k)).owns = g.owns := rfl

theorem applyOp_mergeEntity_edges (g : NeoGraph) (L nid nm k uid : String) :
    (applyOp g (NeoOp.mergeEntity L nid nm k uid)).edges = g.edges := rfl

theorem applyOp_mergeEntity_nodes (g : NeoGraph) (L nid nm k uid : String) :
    (applyOp g (NeoOp.mergeEntity L nid nm k uid)).nodes =
      if g.nodes.any (fun n => decide (n.label = L ∧ n.nid = nid)) then
        g.nodes.map (fun n =>
          if n.label = L ∧ n.nid = nid then { n with nodeName := nm, kgId := some k }
          else n)
      else g.nodes ++ [⟨L, nid, nm, some k⟩] := rfl

theorem applyOp_mergeEntity_owns (g : NeoGraph) (L nid nm k uid : String) :
    (applyOp g (NeoOp.mergeEntity L nid nm k uid)).owns =
      if (uid, L, nid) ∈ g.owns then g.owns else g.owns ++ [(uid, L, nid)] := rfl

theorem applyOp_owns_mono (g : NeoGraph) (op : NeoOp) :
    ∀ o ∈ g.owns, o ∈ (applyOp g op).owns := by
  intro o ho
  cases op with
  | mergeUser u => rw [applyOp_mergeUser_owns]; exact ho
  | mergeEntity L nid nm k uid =>
      rw [applyOp_mergeEntity_owns]
      split
      · exact ho
      · exact List.mem_append_left _ ho
  | mergeRel R s o k => exact ho

theorem applyOp_hasKgNode_preserve (g : NeoGraph) (op : NeoOp) (kg L0 nid0 : String)
    (hop : opPreservesKg kg op) (h : hasKgNode kg L0 nid0 g) :
    hasKgNode kg L0 nid0 (applyOp g op) := by
  obtain ⟨n, hn, hl, hi, hk⟩ := h
  cases op with
  | mergeUser u =>
      refine ⟨n, ?_, hl, hi, hk⟩
      rw [applyOp_mergeUser_nodes]; exact hn
  | mergeEntity L nid nm k uid =>
      cases hop
      unfold hasKgNode
      rw [applyOp_mergeEntity_nodes]
      split
      · refine ⟨if n.label = L ∧ n.nid = nid then { n with nodeName := nm, kgId := some kg } else n,
          List.mem_map_of_mem _ hn, ?_⟩
        split
        · exact ⟨hl, hi, rfl⟩
        · exact ⟨hl, hi, hk⟩
      · exact ⟨n, List.mem_append_left _ hn, hl, hi, hk⟩
  | mergeRel R s o k => exact ⟨n, hn, hl, hi, hk⟩

theorem applyOps_hasKgNode_preserve (ops : List NeoOp) (kg L0 nid0 : String)
    (hops : ∀ op ∈ ops, opPreservesKg kg op) :
    ∀ g, hasKgNode kg L0 nid0 g → hasKgNode kg L0 nid0 (applyOps g ops) := by
  induction ops with
  | nil => exact fun g h => h
  | cons op rest ih =>
      intro g h
      exact ih (fun o ho => hops o (List.mem_cons_of_mem _ ho))
        (applyOp g op)
        (applyOp_hasKgNode_preserve g op kg L0 nid0 (hops op (List.mem_cons_self _ _)) h)

theorem applyOps_owns_mono (ops : List NeoOp) :
    ∀ g, ∀ o ∈ g.owns, o ∈ (applyOps g ops).owns := by
  induction ops with
  | nil => exact fun g o ho => ho
  | cons op rest ih =>
      intro g o ho
      exact ih (applyOp g op) o (applyOp_owns_mono g op o ho)

theorem applyOp_mergeEntity_self (g : NeoGraph) (L nid nm kg uid : String) :
    hasKgNode kg L nid (applyOp g (NeoOp.mergeEntity L nid nm kg uid)) ∧
      (uid, L, nid) ∈ (applyOp g (NeoOp.mergeEntity L nid nm kg uid)).owns := by
  constructor
  · unfold hasKgNode
    rw [applyOp_mergeEntity_nodes]
    split
    · next hmatched =>
        obtain ⟨n, hn, hcond⟩ := List.any_eq_true.mp hmatched
        have hc := of_decide_eq_true hcond
        refine ⟨{ n with nodeName := nm, kgId := some kg }, ?_, hc.1, hc.2, rfl⟩
        have heq : (if n.label = L ∧ n.nid = nid then
            { n with nodeName := nm, kgId := some kg } else n)
            = { n with nodeName := nm, kgId := some kg } := if_pos hc
        exact heq ▸ List.mem_map_of_mem _ hn
    · exact ⟨⟨L, nid, nm, some kg⟩, List.mem_append_right _ (List.mem_cons_self _ _),
        rfl, rfl, rfl⟩
  · rw [applyOp_mergeEntity_owns]
    split
    · next h => exact h
    · exact List.mem_append_right _ (List.mem_cons_self _ _)

theorem foldl_addEdge_mem (pairs : List NeoEdge) :
    ∀ (es : List NeoEdge) (ed : NeoEdge), ed ∈ pairs.foldl addEdge es → ed ∈ es ∨ ed ∈ pairs := by
  induction pairs with
  | nil => exact fun es ed h => Or.inl h
  | cons p rest ih =>
      intro es ed h
      simp only [List.foldl_cons] at h
      rcases ih _ ed h with h1 | h2
      · unfold addEdge at h1
        by_cases hp : p ∈ es
        · rw [if_pos hp] at h1; exact Or.inl h1
        · rw [if_neg hp] at h1
          rcases List.mem_append.mp h1 with h3 | h4
          · exact Or.inl h3
          · exact Or.inr (List.mem_singleton.mp h4 ▸ List.mem_cons_self _ _)
      · exact Or.inr (List.mem_cons_of_mem _ h2)

theorem relPairs_mem (g : NeoGraph) (R s o kg : String) :
    ∀ ed ∈ relPairs g R s o kg,
      (∃ n1 ∈ g.nodes, n1.label = ed.subjLabel ∧ n1.nid = ed.subjId ∧ n1.kgId = some kg) ∧
        (∃ n2 ∈ g.nodes, n2.label = ed.objLabel ∧ n2.nid = ed.objId ∧ n2.kgId = some kg) := by
  intro ed hed
  obtain ⟨n1, hn1, hin⟩ := List.mem_flatMap.mp hed
  by_cases hc1 : n1.nid = s ∧ n1.kgId = some kg
  · rw [if_pos hc1] at hin
    obtain ⟨n2, hn2, hsome⟩ := List.mem_filterMap.mp hin
    by_cases hc2 : n2.nid = o ∧ n2.kgId = some kg
    · rw [if_pos hc2] at hsome
      have hed2 := Option.some_injective _ hsome
      subst hed2
      exact ⟨⟨n1, hn1, rfl, rfl, hc1.2⟩, ⟨n2, hn2, rfl, rfl, hc2.2⟩⟩
    · rw [if_neg hc2] at hsome; cases hsome
  · rw [if_neg hc1] at hin; cases hin

theorem applyOps_relOnly_frame (ops : List NeoOp)
    (hops : ∀ op ∈ ops, ∃ R s o k, op = NeoOp.mergeRel R s o k) :
    ∀ g, (applyOps g ops).nodes = g.nodes ∧ (applyOps g ops).owns = g.owns := by
  induction ops with
  | nil => exact fun g => ⟨rfl, rfl⟩
  | cons op rest ih =>
      intro g
      obtain ⟨R, s, o, k, rfl⟩ := hops _ (List.mem_cons_self _ _)
      have hrest := ih (fun op hop => hops op (List.mem_cons_of_mem _ hop))
        (applyOp g (NeoOp.mergeRel R s o k))
      exact ⟨hrest.1, hrest.2⟩

theorem applyOps_relOnly_edges (ops : List NeoOp) (kg : String)
    (hops : ∀ op ∈ ops, ∃ R s o, op = NeoOp.mergeRel R s o kg) :
    ∀ g, ∀ ed ∈ (applyOps g ops).edges, ed ∈ g.edges ∨
      ((∃ n1 ∈ g.nodes, n1.label = ed.subjLabel ∧ n1.nid = ed.subjId ∧ n1.kgId = some kg) ∧
        (∃ n2 ∈ g.nodes, n2.label = ed.objLabel ∧ n2.nid = ed.objId ∧ n2.kgId = some kg)) := by
  induction ops with
  | nil => exact fun g ed h => Or.inl h
  | cons op rest ih =>
      intro g ed hed
      obtain ⟨R, s, o, rfl⟩ := hops _ (List.mem_cons_self _ _)
      have hstep := ih (fun op hop => hops op (List.mem_cons_of_mem _ hop))
        (applyOp g (NeoOp.mergeRel R s o kg)) ed hed
      rcases hstep with h1 | h2
      · have h3 := foldl_addEdge_mem (relPairs g R s o kg) g.edges ed h1
        rcases h3 with h4 | h5
        · exact Or.inl h4
        · exact Or.inr (relPairs_mem g R s o kg ed h5)
      · exact Or.inr h2

theorem applyOps_noRel_edges (ops : List NeoOp)
    (hops : ∀ op ∈ ops, (∃ u, op = NeoOp.mergeUser u) ∨
      (∃ L i nm k uid, op = NeoOp.mergeEntity L i nm k uid)) :
    ∀ g, (applyOps g ops).edges = g.edges := by
  induction ops with
  | nil => exact fun g => rfl
  | cons op rest ih =>
      intro g
      have hrest := ih (fun op hop => hops op (List.mem_cons_of_mem _ hop)) (applyOp g op)
      rcases hops op (List.mem_cons_self _ _) with ⟨u, rfl⟩ | ⟨L, i, nm, k, uid, rfl⟩
      · rw [applyOps, List.foldl_cons, ← applyOps, hrest, applyOp_mergeUser_edges]
      · rw [applyOps, List.foldl_cons, ← applyOps, hrest, applyOp_mergeEntity_edges]

theorem entity_phase (uid kg : String) (ents : List Entity) :
    ∀ g, ∀ e ∈ ents,
      hasKgNode kg (entityLabel e.type) e.id
        (applyOps g (ents.map (fun e =>
          NeoOp.mergeEntity (entityLabel e.type) e.id e.name kg uid))) ∧
      (uid, entityLabel e.type, e.id) ∈
        (applyOps g (ents.map (fun e =>
          NeoOp.mergeEntity (entityLabel e.type) e.id e.name kg uid))).owns := by
  induction ents with
  | nil => intro g e he; cases he
  | cons e0 rest ih =>
      intro g e he
      have hpres : ∀ op ∈ rest.map (fun e =>
          NeoOp.mergeEntity (entityLabel e.type) e.id e.name kg uid), opPreservesKg kg op := by
        intro op hop
        obtain ⟨e1, _, rfl⟩ := List.mem_map.mp hop
        exact rfl
      rcases List.mem_cons.mp he with rfl | hmem
      · have hself := applyOp_mergeEntity_self g (entityLabel e.type) e.id e.name kg uid
        simp only [List.map_cons, applyOps, List.foldl_cons]
        constructor
        · exact applyOps_hasKgNode_preserve _ kg _ _ hpres _ hself.1
        · exact applyOps_owns_mono _ _ _ hself.2
      · simp only [List.map_cons, applyOps, List.foldl_cons]
        exact ih (applyOp g (NeoOp.mergeEntity (entityLabel e0.type) e0.id e0.name kg uid)) e hmem

/-- C3: persistence confinement.  Running the statement list of
`_save_to_neo4j` from any initial graph state: (i) every entity of the job
ends with a node labelled with its sanitized type, carrying the job's
`kg_id`, and linked from the job's user by an `OWNS` edge; (ii) every edge
the run adds has both endpoints matched by `{id, kg_id}` with the job's
`kg_id` — both endpoint nodes carry that `kg_id` in the final state; (iii)
the statement list is the user merge, then all entity statements, then all
relation statements, every one parameterized by the job's `kg_id` — so all
entity nodes are written before any relation edge. -/
theorem save_to_neo4j_confinement (g0 : NeoGraph) (uid kg : String)
    (ents : List Entity) (rels : List Triple) :
    (∀ e ∈ ents,
      (∃ n ∈ (applyOps g0 (save_to_neo4j uid ents rels kg)).nodes,
        n.label = entityLabel e.type ∧ n.nid = e.id ∧ n.kgId = some kg) ∧
      (uid, entityLabel e.type, e.id) ∈ (applyOps g0 (save_to_neo4j uid ents rels kg)).owns) ∧
    (∀ ed ∈ (applyOps g0 (save_to_neo4j uid ents rels kg)).edges, ed ∉ g0.edges →
      (∃ n1 ∈ (applyOps g0 (save_to_neo4j uid ents rels kg)).nodes,
        n1.label = ed.subjLabel ∧ n1.nid = ed.subjId ∧ n1.kgId = some kg) ∧
      (∃ n2 ∈ (applyOps g0 (save_to_neo4j uid ents rels kg)).nodes,
        n2.label = ed.objLabel ∧ n2.nid = ed.objId ∧ n2.kgId = some kg)) ∧
    (∃ entOps relOps, save_to_neo4j uid ents rels kg =
        NeoOp.mergeUser uid :: (entOps ++ relOps) ∧
      (∀ op ∈ entOps, ∃ e ∈ ents,
        op = NeoOp.mergeEntity (entityLabel e.type) e.id e.name kg uid) ∧
      (∀ op ∈ relOps, ∃ t ∈ rels,
        op = NeoOp.mergeRel (relationLabel t.2.1) t.1 t.2.2 kg)) := by
  have hrelOnly : ∀ op ∈ rels.filterMap (fun t =>
      if relationLabel t.2.1 ≠ "" then
        some (NeoOp.mergeRel (relationLabel t.2.1) t.1 t.2.2 kg)
      else none), ∃ R s o, op = NeoOp.mergeRel R s o kg := by
    intro op hop
    obtain ⟨t, _, hsome⟩ := List.mem_filterMap.mp hop
    by_cases hne : relationLabel t.2.1 ≠ ""
    · rw [if_pos hne] at hsome
      exact ⟨_, _, _, (Option.some_injective _ hsome).symm⟩
    · rw [if_neg hne] at hsome; cases hsome
  have hsplit : applyOps g0 (save_to_neo4j uid ents rels kg) =
      applyOps (applyOps (applyOp g0 (NeoOp.mergeUser uid))
        (ents.map (fun e => NeoOp.mergeEntity (entityLabel e.type) e.id e.name kg uid)))
        (rels.filterMap (fun t =>
          if relationLabel t.2.1 ≠ "" then
            some (NeoOp.mergeRel (relationLabel t.2.1) t.1 t.2.2 kg)
          else none)) := by
    show applyOps g0 (NeoOp.mergeUser uid :: (_ ++ _)) = _
    rw [applyOps, List.foldl_cons, ← applyOps, applyOps_append]
  have hframe := applyOps_relOnly_frame _
    (fun op hop => (hrelOnly op hop).elim fun R h => h.elim fun s h2 => h2.elim
      fun o h3 => ⟨R, s, o, kg, h3⟩)
    (applyOps (applyOp g0 (NeoOp.mergeUser uid))
      (ents.map (fun e => NeoOp.mergeEntity (entityLabel e.type) e.id e.name kg uid)))
  refine ⟨?_, ?_, ?_⟩
  · intro e he
    have hep := entity_phase uid kg ents (applyOp g0 (NeoOp.mergeUser uid)) e he
    rw [hsplit, hframe.1, hframe.2]
    exact hep
  · intro ed hed hnot
    rw [hsplit] at hed
    have hcases := applyOps_relOnly_edges _ kg hrelOnly _ ed hed
    rcases hcases with h1 | h2
    · exfalso
      have hent : (applyOps (applyOp g0 (NeoOp.mergeUser uid))
          (ents.map (fun e =>
            NeoOp.mergeEntity (entityLabel e.type) e.id e.name kg uid))).edges = g0.edges := by
        rw [applyOps_noRel_edges _ ?_ _, applyOp_mergeUser_edges]
        intro op hop
        obtain ⟨e1, _, rfl⟩ := List.mem_map.mp hop
        exact Or.inr ⟨_, _, _, _, _, rfl⟩
      rw [hent] at h1
      exact hnot h1
    · rw [hsplit, hframe.1]
      exact h2
  · refine ⟨_, _, rfl, ?_, ?_⟩
    · intro op hop
      obtain ⟨e, he, rfl⟩ := List.mem_map.mp hop
      exact ⟨e, he, rfl⟩
    · intro op hop
      obtain ⟨t, ht, hsome⟩ := List.mem_filterMap.mp hop
      by_cases hne : relationLabel t.2.1 ≠ ""
      · rw [if_pos hne] at hsome
        exact ⟨t, ht, (Option.some_injective _ hsome).symm⟩
      · rw [if_neg hne] at hsome; cases hsome

/-- Empty graph store used to instantiate the persistence theorem. -/
def wGraph : NeoGraph := ⟨[], [], [], []⟩

/-- Sample entity used to instantiate the persistence theorem. -/
def wEnt : Entity := ⟨"e1", "Ada", "person", [], none⟩

/-- Sample triple list used to instantiate the persistence theorem. -/
def wRels : List Triple := [("e1", "knows", "e1")]

/-- Final graph of the sample persistence run. -/
def wFinal : NeoGraph := applyOps wGraph (save_to_neo4j "u1" [wEnt] wRels "kg1")

/-- The edge the sample persistence run writes. -/
def wEdge : NeoEdge :=
  ⟨relationLabel "knows", entityLabel "person", "e1", entityLabel "person", "e1"⟩

theorem save_to_neo4j_confinement_witness :
    ((∃ n ∈ wFinal.nodes,
        n.label = entityLabel wEnt.type ∧ n.nid = wEnt.id ∧ n.kgId = some "kg1") ∧
      ("u1", entityLabel wEnt.type, wEnt.id) ∈ wFinal.owns) ∧
    ((∃ n1 ∈ wFinal.nodes,
        n1.label = wEdge.subjLabel ∧ n1.nid = wEdge.subjId ∧ n1.kgId = some "kg1") ∧
      (∃ n2 ∈ wFinal.nodes,
        n2.label = wEdge.objLabel ∧ n2.nid = wEdge.objId ∧ n2.kgId = some "kg1")) := by
  have h := save_to_neo4j_confinement wGraph "u1" "kg1" [wEnt] wRels
  exact ⟨h.1 wEnt (List.mem_cons_self _ _), h.2.1 wEdge (by decide) (by decide)⟩

/-! ## TransE knowledge completion (`TransEKnowledgeCompletion.complete`)

`complete` runs after (stochastic, floating-point) training; the trained
state is abstracted as: the iteration list of `self.relations`, the key sets
of `self.entity_embeddings` / `self.relation_embeddings`, and the distance
function `(h, r, t) ↦ ‖(h + r) − t‖` as a rational-valued parameter.  The
theorems hold for every such state, so they cover every outcome of training. -/

structure TransEState where
  relationTypes : List String
  entityEmbKeys : List String
  relationEmbKeys : List String
  dist : String → String → String → ℚ

/-- First-occurrence deduplication, as Python dict-key insertion order. -/
def firstDedupAux (seen : List String) : List String → List String
  | [] => []
  | x :: xs =>
    if x ∈ seen then firstDedupAux seen xs else x :: firstDedupAux (x :: seen) xs

/-- Keep the first occurrence of each string of the list. -/
def firstDedup (l : List String) : List String := firstDedupAux [] l

/-- Stable insertion into a list sorted by the second component, as Python's
stable `sorted(..., key=lambda x: x[1])`. -/
def insertBySnd (x : String × ℚ) : List (String × ℚ) → List (String × ℚ)
  | [] => [x]
  | y :: ys => if x.2 < y.2 then x :: y :: ys else y :: insertBySnd x ys

/-- Stable sort of `(tail, distance)` pairs by distance. -/
def sortBySnd (l : List (String × ℚ)) : List (String × ℚ) := l.foldr insertBySnd []

/-- Model of `TransEKnowledgeCompletion.complete` after training.  It scores,
for every trained relation type and every head entity with an embedding, the
tails that are distinct from the head, not already observed, and embedded,
and returns the three nearest tails per (head, relation) — only those
inferred triples, with no observed triple included. -/
def transe_complete (st : TransEState) (entities : List Entity)
    (relations : List Triple) : List Triple :=
  let entityIds := entities.map Entity.id
  if entityIds = [] then []
  else
    st.relationTypes.flatMap (fun relation =>
      entityIds.flatMap (fun head =>
        if head ∉ st.entityEmbKeys then []
        else if relation ∉ st.relationEmbKeys then []
        else
          let candidates := (firstDedup entityIds).filterMap (fun tail =>
            if tail = head ∨ (head, relation, tail) ∈ relations then none
            else if tail ∉ st.entityEmbKeys then none
            else some (tail, st.dist head relation tail))
          ((sortBySnd candidates).take 3).map (fun p => (head, relation, p.1))))

/-- Model of the completion stage of `KGService._build_kg_async` (lines
277–298): `completed_triples = all_relations.copy()`, overwritten by the
strategy result when completion is enabled and does not raise. -/
def completion_stage (enableCompletion completionOk : Bool) (st : TransEState)
    (alignedEntities : List Entity) (allRelations : List Triple) : List Triple :=
  if enableCompletion then
    if completionOk then transe_complete st alignedEntities allRelations
    else allRelations
  else allRelations

theorem mem_insertBySnd (x z : String × ℚ) :
    ∀ l, z ∈ insertBySnd x l → z = x ∨ z ∈ l := by
  intro l
  induction l with
  | nil => intro h; exact Or.inl (List.mem_singleton.mp h)
  | cons y ys ih =>
      intro h
      unfold insertBySnd at h
      split at h
      · rcases List.mem_cons.mp h with h1 | h2
        · exact Or.inl h1
        · exact Or.inr h2
      · rcases List.mem_cons.mp h with h1 | h2
        · exact Or.inr (h1 ▸ List.mem_cons_self _ _)
        · rcases ih h2 with h3 | h4
          · exact Or.inl h3
          · exact Or.inr (List.mem_cons_of_mem _ h4)

theorem mem_sortBySnd (z : String × ℚ) :
    ∀ l, z ∈ sortBySnd l → z ∈ l := by
  intro l
  induction l with
  | nil => intro h; cases h
  | cons y ys ih =>
      intro h
      rcases mem_insertBySnd y z _ h with h1 | h2
      · exact h1 ▸ List.mem_cons_self _ _
      · exact List.mem_cons_of_mem _ (ih h2)

/-- C1: the completion stage drops the observed triples.  When completion is
enabled and succeeds, the list bound to `completed_triples` (and then
persisted) is exactly the strategy's return value, and no observed triple is
ever in that value: `complete` filters out every `(head, relation, tail)`
already in `existing_relations` and returns only the inferred triples, not
the observed triples with the inferred ones appended. -/
theorem transe_complete_omits_observed (st : TransEState) (entities : List Entity)
    (relations : List Triple) :
    completion_stage true true st entities relations =
        transe_complete st entities relations ∧
      ∀ tr ∈ relations, tr ∉ transe_complete st entities relations := by
  refine ⟨rfl, ?_⟩
  intro tr htr hmem
  simp only [transe_complete] at hmem
  split at hmem
  · cases hmem
  · obtain ⟨relation, _, hmem2⟩ := List.mem_flatMap.mp hmem
    obtain ⟨head, _, hmem3⟩ := List.mem_flatMap.mp hmem2
    split at hmem3
    · cases hmem3
    · split at hmem3
      · cases hmem3
      · obtain ⟨p, hp, htr2⟩ := List.mem_map.mp hmem3
        have hp2 := mem_sortBySnd p _ (List.take_subset _ _ hp)
        obtain ⟨tail, _, hsome⟩ := List.mem_filterMap.mp hp2
        by_cases hc : tail = head ∨ (head, relation, tail) ∈ relations
        · rw [if_pos hc] at hsome; cases hsome
        · rw [if_neg hc] at hsome
          by_cases hc2 : tail ∉ st.entityEmbKeys
          · rw [if_pos hc2] at hsome; cases hsome
          · rw [if_neg hc2] at hsome
            have hptail : p = (tail, st.dist head relation tail) :=
              (Option.some_injective _ hsome).symm
            rw [← htr2, hptail] at htr
            exact hc (Or.inr htr)

/-- Trained-state sample for the completion theorem. -/
def wTransE : TransEState := ⟨["r"], ["a", "b"], ["r"], fun _ _ _ => 0⟩

/-- Entity sample for the completion theorem. -/
def wTransEEnts : List Entity := [⟨"a", "A", "T", [], none⟩, ⟨"b", "B", "T", [], none⟩]

theorem transe_complete_omits_observed_witness :
    ("a", "r", "b") ∈ [(("a", "r", "b") : Triple)] ∧
      ("a", "r", "b") ∉ transe_complete wTransE wTransEEnts [("a", "r", "b")] :=
  ⟨by decide,
    (transe_complete_omits_observed wTransE wTransEEnts [("a", "r", "b")]).2
      ("a", "r", "b") (by decide)⟩

/-! ## Entity alignment (`EntityAlignment`)

The similarity score `0.7·ratio + 0.3·type` is floating-point valued and is
abstracted as a `ℚ`-valued parameter `sim`, applied — as in the source inner
loop — to the current (already merged) cluster representative and the
candidate.  The threshold `τ` is the constructor argument (default 0.8). -/

/-- Merge step of the inner loop of `align_entities`: keep the longer name,
absorb attribute keys not yet present (first writer wins).  The base keys
`id`, `name`, `type` are always present on the current entity, so only the
extra attributes are absorbed; `merged_ids` is overwritten at the end of the
outer iteration and so not modelled inside the merge. -/
def mergeInto (cur e : Entity) : Entity :=
  { cur with
    name := if e.name.length > cur.name.length then e.name else cur.name,
    attrs := cur.attrs ++ e.attrs.filter (fun kv => (cur.attrs.lookup kv.1).isNone) }

/-- Inner loop of `align_entities` for one cluster head: scan the not yet
processed entities in order; absorb each one whose similarity to the current
representative reaches the threshold, collecting its id; return the final
representative, the collected id list, and the entities left unprocessed in
their original order. -/
def absorb (sim : Entity → Entity → ℚ) (τ : ℚ) (cur : Entity) (acc : List String) :
    List Entity → Entity × List String × List Entity
  | [] => (cur, acc, [])
  | e :: rest =>
    if sim cur e ≥ τ then absorb sim τ (mergeInto cur e) (acc ++ [e.id]) rest
    else
      let r := absorb sim τ cur acc rest
      (r.1, r.2.1, e :: r.2.2)

theorem absorb_leftover_le (sim : Entity → Entity → ℚ) (τ : ℚ) :
    ∀ (l : List Entity) (cur : Entity) (acc : List String),
      (absorb sim τ cur acc l).2.2.length ≤ l.length := by
  intro l
  induction l with
  | nil => intro cur acc; exact Nat.le_refl _
  | cons e rest ih =>
      intro cur acc
      unfold absorb
      split
      · exact Nat.le_succ_of_le (ih _ _)
      · simpa using ih cur acc

/-- Outer loop of `align_entities` (the path for two or more entities): each
unprocessed entity opens a cluster, absorbs subsequent similar entities, gets
`merged_ids` set, and the scan continues on the leftovers. -/
def alignLoop (sim : Entity → Entity → ℚ) (τ : ℚ) : List Entity → List Entity
  | [] => []
  | e :: rest =>
    let r := absorb sim τ e [e.id] rest
    { r.1 with mergedIds := some r.2.1 } :: alignLoop sim τ r.2.2
termination_by l => l.length
decreasing_by
  simp only [List.length_cons]
  exact Nat.lt_succ_of_le (absorb_leftover_le sim τ rest e [e.id])

/-- Model of `EntityAlignment.align_entities`: lists of length at most one are
returned as is; otherwise the greedy single-pass clustering runs. -/
def align_entities (sim : Entity → Entity → ℚ) (τ : ℚ) (entities : List Entity) :
    List Entity :=
  if entities.length ≤ 1 then entities else alignLoop sim τ entities

/-- The `merged_ids` value of an aligned entity (empty when absent). -/
def mergedIdsD (a : Entity) : List String := a.mergedIds.getD []

/-- Canonical-id lookup `self.merged_entities.get(x, x)`. -/
def mapId (mm : List (String × String)) (x : String) : String :=
  match mm.lookup x with
  | some y => y
  | none => x

/-- Endpoint rewrite applied to one triple by `adjust_relations`. -/
def adjustTriple (mm : List (String × String)) (t : Triple) : Triple :=
  (mapId mm t.1, t.2.1, mapId mm t.2.2)

/-- Main loop of `adjust_relations`: rewrite each triple's endpoints and keep
it when the rewritten tuple has not been seen. -/
def adjustLoop (mm : List (String × String)) (seen : List Triple) :
    List Triple → List Triple
  | [] => []
  | t :: rest =>
    let tr := adjustTriple mm t
    if tr ∈ seen then adjustLoop mm seen rest
    else tr :: adjustLoop mm (tr :: seen) rest

/-- Model of `EntityAlignment.adjust_relations`: returns the input list
unchanged when the relation list or the merge map is empty, and otherwise
rewrites endpoints through the merge map and drops duplicate tuples. -/
def adjust_relations (mm : List (String × String)) (relations : List Triple) :
    List Triple :=
  if relations = [] ∨ mm = [] then relations
  else adjustLoop mm [] relations

theorem adjustLoop_mem (mm : List (String × String)) :
    ∀ (l : List Triple) (seen : List Triple), ∀ tr ∈ adjustLoop mm seen l,
      tr ∉ seen ∧ ∃ src ∈ l, tr = adjustTriple mm src := by
  intro l
  induction l with
  | nil => intro seen tr h; cases h
  | cons t rest ih =>
      intro seen tr h
      simp only [adjustLoop] at h
      split at h
      · obtain ⟨hnot, src, hsrc, heq⟩ := ih seen tr h
        exact ⟨hnot, src, List.mem_cons_of_mem _ hsrc, heq⟩
      · rcases List.mem_cons.mp h with rfl | h2
        · next hseen => exact ⟨hseen, t, List.mem_cons_self _ _, rfl⟩
        · obtain ⟨hnot, src, hsrc, heq⟩ := ih _ tr h2
          exact ⟨fun hs => hnot (List.mem_cons_of_mem _ hs),
            src, List.mem_cons_of_mem _ hsrc, heq⟩

theorem adjustLoop_nodup (mm : List (String × String)) :
    ∀ (l : List Triple) (seen : List Triple), (adjustLoop mm seen l).Nodup := by
  intro l
  induction l with
  | nil => intro seen; exact List.nodup_nil
  | cons t rest ih =>
      intro seen
      simp only [adjustLoop]
      split
      · exact ih seen
      · refine List.nodup_cons.mpr ⟨?_, ih _⟩
        intro hmem
        exact (adjustLoop_mem mm rest _ _ hmem).1 (List.mem_cons_self _ _)

theorem adjustLoop_cover (mm : List (String × String)) :
    ∀ (l : List Triple) (seen : List Triple), ∀ src ∈ l,
      adjustTriple mm src ∈ seen ∨ adjustTriple mm src ∈ adjustLoop mm seen l := by
  intro l
  induction l with
  | nil => intro seen src h; cases h
  | cons t rest ih =>
      intro seen src hsrc
      simp only [adjustLoop]
      split
      · next hseen =>
          rcases List.mem_cons.mp hsrc with rfl | h2
          · exact Or.inl hseen
          · exact ih seen src h2
      · rcases List.mem_cons.mp hsrc with rfl | h2
        · exact Or.inr (List.mem_cons_self _ _)
        · rcases ih (adjustTriple mm t :: seen) src h2 with h3 | h4
          · rcases List.mem_cons.mp h3 with h5 | h6
            · exact Or.inr (h5 ▸ List.mem_cons_self _ _)
            · exact Or.inl h6
          · exact Or.inr (List.mem_cons_of_mem _ h4)

/-- C7 counterexample: with an empty merge map and a duplicated input triple,
`adjust_relations` returns the input list — duplicates included — so the
claim's de-duplication guarantee fails for the empty merge map. -/
theorem adjust_relations_empty_map_counterexample :
    adjust_relations [] [("a", "r", "b"), ("a", "r", "b")] =
        [("a", "r", "b"), ("a", "r", "b")] ∧
      ¬ (adjust_relations [] [("a", "r", "b"), ("a", "r", "b")]).Nodup := by
  constructor
  · rfl
  · decide

/-- C7 (amended): when the merge map (or the relation list) is empty the
input list is returned unchanged, so pre-existing duplicates survive; when
the merge map is non-empty, every returned triple is the merge-map rewrite
of an input triple, every input triple's rewrite is returned, and the result
has no duplicate tuples. -/
theorem adjust_relations_amended (mm : List (String × String)) (relations : List Triple) :
    (relations = [] ∨ mm = [] → adjust_relations mm relations = relations) ∧
    (mm ≠ [] →
      (adjust_relations mm relations).Nodup ∧
      (∀ tr ∈ adjust_relations mm relations, ∃ src ∈ relations, tr = adjustTriple mm src) ∧
      (∀ src ∈ relations, adjustTriple mm src ∈ adjust_relations mm relations)) := by
  constructor
  · intro h
    unfold adjust_relations
    rw [if_pos h]
  · intro hmm
    by_cases hrel : relations = []
    · subst hrel
      unfold adjust_relations
      rw [if_pos (Or.inl rfl)]
      exact ⟨List.nodup_nil, fun tr h => absurd h (List.not_mem_nil _),
        fun src h => absurd h (List.not_mem_nil _)⟩
    · have hcond : ¬(relations = [] ∨ mm = []) := fun h => h.elim hrel hmm
      unfold adjust_relations
      rw [if_neg hcond]
      refine ⟨adjustLoop_nodup mm relations [], ?_, ?_⟩
      · intro tr h
        exact (adjustLoop_mem mm relations [] tr h).2
      · intro src hsrc
        rcases adjustLoop_cover mm relations [] src hsrc with h | h
        · cases h
        · exact h

theorem mergeInto_id (cur e : Entity) : (mergeInto cur e).id = cur.id := rfl

theorem absorb_fst_id (sim : Entity → Entity → ℚ) (τ : ℚ) :
    ∀ (l : List Entity) (cur : Entity) (acc : List String),
      (absorb sim τ cur acc l).1.id = cur.id := by
  intro l
  induction l with
  | nil => intro cur acc; rfl
  | cons e rest ih =>
      intro cur acc
      unfold absorb
      split
      · rw [ih (mergeInto cur e) (acc ++ [e.id]), mergeInto_id]
      · exact ih cur acc

theorem absorb_acc_structure (sim : Entity → Entity → ℚ) (τ : ℚ) :
    ∀ (l : List Entity) (cur : Entity) (acc : List String),
      ∃ abs, (absorb sim τ cur acc l).2.1 = acc ++ abs ∧
        List.Perm (abs ++ (absorb sim τ cur acc l).2.2.map Entity.id) (l.map Entity.id) := by
  intro l
  induction l with
  | nil =>
      intro cur acc
      exact ⟨[], (List.append_nil acc).symm, List.Perm.refl _⟩
  | cons e rest ih =>
      intro cur acc
      unfold absorb
      split
      · obtain ⟨abs2, heq, hperm⟩ := ih (mergeInto cur e) (acc ++ [e.id])
        refine ⟨e.id :: abs2, ?_, ?_⟩
        · rw [heq, List.append_assoc]
          rfl
        · simpa using List.Perm.cons e.id hperm
      · obtain ⟨abs, heq, hperm⟩ := ih cur acc
        refine ⟨abs, heq, ?_⟩
        simp only [List.map_cons]
        exact List.Perm.trans List.perm_middle (List.Perm.cons e.id hperm)

theorem alignLoop_props (sim : Entity → Entity → ℚ) (τ : ℚ) :
    ∀ (n : ℕ) (l : List Entity), l.length ≤ n →
      (∀ a ∈ alignLoop sim τ l, ∃ ids, a.mergedIds = some ids ∧ ids.head? = some a.id) ∧
        List.Perm ((alignLoop sim τ l).flatMap mergedIdsD) (l.map Entity.id) := by
  intro n
  induction n with
  | zero =>
      intro l hl
      have hnil : l = [] := List.length_eq_zero.mp (Nat.le_zero.mp hl)
      subst hnil
      constructor
      · intro a ha; simp [alignLoop] at ha
      · simp [alignLoop]
  | succ n ih =>
      intro l hl
      match l with
      | [] =>
          constructor
          · intro a ha; simp [alignLoop] at ha
          · simp [alignLoop]
      | e :: rest =>
          have hlen : (absorb sim τ e [e.id] rest).2.2.length ≤ n := by
            have h1 := absorb_leftover_le sim τ rest e [e.id]
            have h2 : rest.length ≤ n := by
              simpa using Nat.le_of_succ_le_succ (by simpa using hl)
            omega
          obtain ⟨hheadRest, hpermRest⟩ := ih (absorb sim τ e [e.id] rest).2.2 hlen
          obtain ⟨abs, habs, hpermAbs⟩ := absorb_acc_structure sim τ rest e [e.id]
          constructor
          · intro a ha
            simp only [alignLoop] at ha
            rcases List.mem_cons.mp ha with rfl | h2
            · refine ⟨(absorb sim τ e [e.id] rest).2.1, rfl, ?_⟩
              rw [habs]
              show (e.id :: abs).head? = some _
              rw [List.head?_cons]
              have hid : (absorb sim τ e [e.id] rest).1.id = e.id :=
                absorb_fst_id sim τ rest e [e.id]
              exact congrArg some hid.symm
            · exact hheadRest a h2
          · simp only [alignLoop, List.flatMap_cons]
            have hd : mergedIdsD { (absorb sim τ e [e.id] rest).1 with
                mergedIds := some (absorb sim τ e [e.id] rest).2.1 } =
                (absorb sim τ e [e.id] rest).2.1 := rfl
            rw [hd, habs]
            show List.Perm (e.id :: (abs ++ _)) _
            rw [List.map_cons]
            refine List.Perm.cons e.id ?_
            exact List.Perm.trans (List.Perm.append_left abs hpermRest) hpermAbs

theorem natCountPosOfSumZero :
    ∀ ns : List ℕ, ns.sum = 0 → ns.countP (fun n => decide (0 < n)) = 0 := by
  intro ns
  induction ns with
  | nil => intro h; rfl
  | cons n rest ih =>
      intro h
      rw [List.sum_cons] at h
      have hn : n = 0 := by omega
      rw [List.countP_cons, ih (by omega), hn]
      simp

theorem natSumOneCountP :
    ∀ ns : List ℕ, ns.sum = 1 → ns.countP (fun n => decide (0 < n)) = 1 := by
  intro ns
  induction ns with
  | nil => intro h; exact absurd h (by decide)
  | cons n rest ih =>
      intro h
      rw [List.sum_cons] at h
      rw [List.countP_cons]
      by_cases hn : n = 0
      · subst hn
        rw [ih (by omega)]
        simp
      · have hn1 : 0 < n := Nat.pos_of_ne_zero hn
        rw [natCountPosOfSumZero rest (by omega)]
        simp [hn1]

/-- C10: `align_entities` returns inputs of length at most one unchanged (no
`merged_ids` field is added); for two or more mentions every returned entity
carries a `merged_ids` list headed by its own id, the returned `merged_ids`
lists jointly hold exactly the input mention ids (as a permutation), and —
under the data-model invariant that mention ids are unique — every mention id
appears in exactly one `merged_ids` list. -/
theorem align_entities_spec (sim : Entity → Entity → ℚ) (τ : ℚ) (entities : List Entity) :
    (entities.length ≤ 1 → align_entities sim τ entities = entities) ∧
    (2 ≤ entities.length →
      (∀ a ∈ align_entities sim τ entities,
        ∃ ids, a.mergedIds = some ids ∧ ids.head? = some a.id) ∧
      List.Perm ((align_entities sim τ entities).flatMap mergedIdsD)
        (entities.map Entity.id) ∧
      ((entities.map Entity.id).Nodup → ∀ i ∈ entities.map Entity.id,
        ((align_entities sim τ entities).filter
          (fun a => decide (i ∈ mergedIdsD a))).length = 1)) := by
  constructor
  · intro h
    unfold align_entities
    rw [if_pos h]
  · intro h2
    have hnot : ¬ entities.length ≤ 1 := by omega
    unfold align_entities
    rw [if_neg hnot]
    obtain ⟨hhead, hperm⟩ := alignLoop_props sim τ entities.length entities (le_refl _)
    refine ⟨hhead, hperm, ?_⟩
    intro hnd i hi
    have hcnt : ((alignLoop sim τ entities).flatMap mergedIdsD).count i = 1 := by
      rw [hperm.count_eq]
      exact List.count_eq_one_of_mem hnd hi
    rw [List.count_flatMap] at hcnt
    have hsum := natSumOneCountP _ hcnt
    rw [List.countP_map] at hsum
    have hfun : ((fun n => decide (0 < n)) ∘ List.count i ∘ mergedIdsD) =
        (fun a => decide (i ∈ mergedIdsD a)) := by
      funext a
      exact decide_eq_decide.mpr List.count_pos_iff
    rw [hfun] at hsum
    rw [← List.countP_eq_length_filter]
    exact hsum

/-- Concrete similarity used to instantiate the alignment theorem. -/
def wSim : Entity → Entity → ℚ := fun a b => if a.name = b.name then 1 else 0

/-- Concrete mention list used to instantiate the alignment theorem. -/
def wAlignEnts : List Entity := [⟨"a1", "x", "T", [], none⟩, ⟨"a2", "x", "T", [], none⟩]

theorem align_entities_spec_witness :
    ((wAlignEnts.map Entity.id).Nodup) ∧
      ((align_entities wSim 1 wAlignEnts).filter
        (fun a => decide ("a1" ∈ mergedIdsD a))).length = 1 :=
  ⟨by decide,
    (((align_entities_spec wSim 1 wAlignEnts).2 (by decide)).2.2 (by decide)) "a1" (by decide)⟩

theorem adjust_relations_amended_witness :
    (adjust_relations [("x", "a")] [("x", "r", "b"), ("a", "r", "b")]).Nodup ∧
      adjustTriple [("x", "a")] ("x", "r", "b") ∈
        adjust_relations [("x", "a")] [("x", "r", "b"), ("a", "r", "b")] :=
  ⟨((adjust_relations_amended [("x", "a")] [("x", "r", "b"), ("a", "r", "b")]).2
      (by decide)).1,
    ((adjust_relations_amended [("x", "a")] [("x", "r", "b"), ("a", "r", "b")]).2
      (by decide)).2.2 ("x", "r", "b") (by decide)⟩

/-! ## SimHash preprocessing (`SimHashPreprocessor`)

The 64-bit fingerprint is computed from word frequencies and per-bit signs of
the MD5 integer of each word; MD5 itself is abstracted as the parameter
`md5w : String → ℕ` (the value of `int(hashlib.md5(word).hexdigest(), 16)`).
Every theorem holds for an arbitrary `md5w`. -/

/-- Scanner for Python `text.split()`: accumulate the current word in
reverse, emit it at each whitespace run or at the end. -/
def splitWsAux (cur : List Char) : List Char → List String
  | [] => if cur = [] then [] else [String.mk cur.reverse]
  | c :: rest =>
    if c.isWhitespace then
      if cur = [] then splitWsAux [] rest
      else String.mk cur.reverse :: splitWsAux [] rest
    else splitWsAux (c :: cur) rest

/-- Python `text.split()`: split on whitespace runs, dropping empty pieces. -/
def pySplit (text : String) : List String := splitWsAux [] text.toList

/-- Fuelled binary digit sum; `fuel ≥ n` makes it total on `n`. -/
def popcountAux : ℕ → ℕ → ℕ
  | 0, _ => 0
  | fuel + 1, n => if n = 0 then 0 else n % 2 + popcountAux fuel (n / 2)

/-- Number of set bits, as `bin(x).count('1')`. -/
def popcount (n : ℕ) : ℕ := popcountAux n n

/-- Model of `SimHashPreprocessor._hamming_distance`:
`bin(hash1 ^ hash2).count('1')`. -/
def hammingDist (h1 h2 : ℕ) : ℕ := popcount (h1 ^^^ h2)

/-- Signed accumulator entry `vector[i]` of `_compute_simhash`: each distinct
word contributes `+weight` when bit `i` of its hash is set, `-weight`
otherwise, with `weight` the word's frequency. -/
def simhashVector (md5w : String → ℕ) (ws : List String) (i : ℕ) : ℤ :=
  ((firstDedup ws).map (fun w =>
    if (md5w w).testBit i then (ws.count w : ℤ) else -(ws.count w : ℤ))).sum

/-- Model of `SimHashPreprocessor._compute_simhash`: zero for wordless text,
otherwise bit `i` of the fingerprint is set iff `vector[i] > 0`. -/
def computeSimhash (md5w : String → ℕ) (text : String) : ℕ :=
  let ws := pySplit text
  if ws = [] then 0
  else ((List.range 64).map (fun i =>
    if 0 < simhashVector md5w ws i then 2 ^ i else 0)).sum

/-- Main loop of `deduplicate`: keep a text iff its fingerprint is further
than 3 from every already kept fingerprint. -/
def simhashDedupGo (md5w : String → ℕ) (keptHashes : List ℕ) :
    List String → List String
  | [] => []
  | t :: rest =>
    if keptHashes.any (fun h => decide (hammingDist (computeSimhash md5w t) h ≤ 3)) then
      simhashDedupGo md5w keptHashes rest
    else t :: simhashDedupGo md5w (keptHashes ++ [computeSimhash md5w t]) rest

/-- Model of `SimHashPreprocessor.deduplicate`. -/
def simhash_deduplicate (md5w : String → ℕ) (texts : List String) : List String :=
  if texts = [] then [] else simhashDedupGo md5w [] texts

theorem hammingDist_comm (h1 h2 : ℕ) : hammingDist h1 h2 = hammingDist h2 h1 := by
  unfold hammingDist
  rw [Nat.xor_comm]

theorem hammingDist_self (h : ℕ) : hammingDist h h = 0 := by
  unfold hammingDist
  rw [Nat.xor_self]
  rfl

theorem simhashDedupGo_sublist (md5w : String → ℕ) :
    ∀ (l : List String) (kept : List ℕ), (simhashDedupGo md5w kept l).Sublist l := by
  intro l
  induction l with
  | nil => intro kept; exact List.Sublist.refl _
  | cons t rest ih =>
      intro kept
      unfold simhashDedupGo
      split
      · exact List.Sublist.cons t (ih kept)
      · exact List.Sublist.cons₂ t (ih _)

theorem simhashDedupGo_far_from_kept (md5w : String → ℕ) :
    ∀ (l : List String) (kept : List ℕ), ∀ u ∈ simhashDedupGo md5w kept l,
      ∀ h ∈ kept, 3 < hammingDist (computeSimhash md5w u) h := by
  intro l
  induction l with
  | nil => intro kept u hu; cases hu
  | cons t rest ih =>
      intro kept u hu h hh
      unfold simhashDedupGo at hu
      split at hu
      · exact ih kept u hu h hh
      · next hany =>
          rcases List.mem_cons.mp hu with rfl | h2
          · simp only [List.any_eq_true, decide_eq_true_eq, not_exists, not_and,
              not_le] at hany
            exact hany h hh
          · exact ih _ u h2 h (List.mem_append_left _ hh)

theorem simhashDedupGo_pairwise (md5w : String → ℕ) :
    ∀ (l : List String) (kept : List ℕ),
      List.Pairwise (fun u v =>
        3 < hammingDist (computeSimhash md5w u) (computeSimhash md5w v))
        (simhashDedupGo md5w kept l) := by
  intro l
  induction l with
  | nil => intro kept; exact List.Pairwise.nil
  | cons t rest ih =>
      intro kept
      unfold simhashDedupGo
      split
      · exact ih kept
      · refine List.Pairwise.cons ?_ (ih _)
        intro v hv
        have hfar := simhashDedupGo_far_from_kept md5w rest
          (kept ++ [computeSimhash md5w t]) v hv (computeSimhash md5w t)
          (List.mem_append_right _ (List.mem_cons_self _ _))
        rw [hammingDist_comm] at hfar
        exact hfar

theorem simhashDedupGo_cover (md5w : String → ℕ) :
    ∀ (l : List String) (kept : List ℕ), ∀ t ∈ l,
      (∃ h ∈ kept, hammingDist (computeSimhash md5w t) h ≤ 3) ∨
        ∃ u ∈ simhashDedupGo md5w kept l,
          hammingDist (computeSimhash md5w t) (computeSimhash md5w u) ≤ 3 := by
  intro l
  induction l with
  | nil => intro kept t ht; cases ht
  | cons t0 rest ih =>
      intro kept t ht
      unfold simhashDedupGo
      split
      · next hany =>
          rcases List.mem_cons.mp ht with rfl | h2
          · obtain ⟨h, hh, hle⟩ := List.any_eq_true.mp hany
            exact Or.inl ⟨h, hh, of_decide_eq_true hle⟩
          · exact ih kept t h2
      · rcases List.mem_cons.mp ht with rfl | h2
        · refine Or.inr ⟨t, List.mem_cons_self _ _, ?_⟩
          rw [hammingDist_self]
          omega
        · rcases ih (kept ++ [computeSimhash md5w t0]) t h2 with ⟨h, hh, hle⟩ | ⟨u, hu, hle⟩
          · rcases List.mem_append.mp hh with h3 | h4
            · exact Or.inl ⟨h, h3, hle⟩
            · refine Or.inr ⟨t0, List.mem_cons_self _ _, ?_⟩
              rw [List.mem_singleton.mp h4] at hle
              exact hle
          · exact Or.inr ⟨u, List.mem_cons_of_mem _ hu, hle⟩

/-- C8: SimHash deduplication keeps first occurrences.  For every word-hash
function and text list: the output is a subsequence of the input; the first
text is always kept; every input text is within Hamming distance 3 of some
kept text (so near-duplicates collapse onto their first kept representative,
and identical texts — distance 0 — collapse to one kept copy); kept texts are
pairwise more than 3 apart; and on a two-text list the second text is dropped
exactly when the fingerprints are within distance 3 — texts differing in at
most 3 bits collapse, texts differing in 4 or more bits are both kept. -/
theorem simhash_dedup_spec (md5w : String → ℕ) (texts : List String) :
    (simhash_deduplicate md5w texts).Sublist texts ∧
    (∀ t rest, texts = t :: rest → ∃ out, simhash_deduplicate md5w texts = t :: out) ∧
    (∀ t ∈ texts, ∃ u ∈ simhash_deduplicate md5w texts,
      hammingDist (computeSimhash md5w t) (computeSimhash md5w u) ≤ 3) ∧
    List.Pairwise (fun u v =>
      3 < hammingDist (computeSimhash md5w u) (computeSimhash md5w v))
      (simhash_deduplicate md5w texts) ∧
    (∀ t1 t2, simhash_deduplicate md5w [t1, t2] =
      if hammingDist (computeSimhash md5w t1) (computeSimhash md5w t2) ≤ 3 then [t1]
      else [t1, t2]) := by
  refine ⟨?_, ?_, ?_, ?_, ?_⟩
  · unfold simhash_deduplicate
    split
    · next h => rw [h]
    · exact simhashDedupGo_sublist md5w texts []
  · intro t rest hts
    subst hts
    unfold simhash_deduplicate
    rw [if_neg (List.cons_ne_nil t rest)]
    unfold simhashDedupGo
    rw [if_neg (by simp)]
    exact ⟨_, rfl⟩
  · intro t ht
    unfold simhash_deduplicate
    split
    · next h => rw [h] at ht; cases ht
    · rcases simhashDedupGo_cover md5w texts [] t ht with ⟨h, hh, _⟩ | h2
      · cases hh
      · exact h2
  · unfold simhash_deduplicate
    split
    · exact List.Pairwise.nil
    · exact simhashDedupGo_pairwise md5w texts []
  · intro t1 t2
    unfold simhash_deduplicate
    rw [if_neg (List.cons_ne_nil t1 [t2])]
    unfold simhashDedupGo
    rw [if_neg (by simp)]
    unfold simhashDedupGo
    by_cases hc : hammingDist (computeSimhash md5w t1) (computeSimhash md5w t2) ≤ 3
    · rw [if_pos hc]
      rw [if_pos ?_]
      · rfl
      · simp only [List.nil_append, List.any_cons, List.any_nil, Bool.or_false,
          decide_eq_true_eq]
        rw [hammingDist_comm]
        exact hc
    · rw [if_neg hc]
      rw [if_neg ?_]
      · rfl
      · simp only [List.nil_append, List.any_cons, List.any_nil, Bool.or_false,
          decide_eq_true_eq]
        rw [hammingDist_comm]
        exact hc

/-- Word-hash sample for the deduplication theorem. -/
def wMd5 : String → ℕ := fun w => if w = "a" then 0 else 15

theorem simhash_dedup_spec_witness :
    (∃ out, simhash_deduplicate wMd5 ["a", "b"] = "a" :: out) ∧
      (∃ u ∈ simhash_deduplicate wMd5 ["a", "b"],
        hammingDist (computeSimhash wMd5 "b") (computeSimhash wMd5 u) ≤ 3) :=
  ⟨(simhash_dedup_spec wMd5 ["a", "b"]).2.1 "a" ["b"] rfl,
    (simhash_dedup_spec wMd5 ["a", "b"]).2.2.1 "b" (by decide)⟩

/-! ## MinHash preprocessing (`MinHashPreprocessor`)

`_generate_permutations` draws `(random.randint(1, 1000000),
random.randint(0, 1000000))` K times from Python's global random state —
no seed is ever set — so the permutation list is a free parameter here,
constrained only to the ranges `randint` can produce. -/

/-- Modulus `10 ** 18` of the MinHash arithmetic. -/
def minhashMod : ℕ := 10 ^ 18

/-- Python `min(...)` over a (non-empty) list. -/
def listMin : List ℕ → ℕ
  | [] => 0
  | x :: xs => xs.foldl min x

/-- Model of `MinHashPreprocessor._compute_minhash`: the word set of the
text (Python `set(text.split())`; a first-occurrence list here, which `min`
makes order-irrelevant), each word hashed by `md5w · % 10^18`, and one
signature slot `min((a*h + b) % 10^18 for h in word_hashes)` per
permutation; wordless texts get the all-zero signature. -/
def computeMinhash (perms : List (ℕ × ℕ)) (md5w : String → ℕ) (text : String) :
    List ℕ :=
  let words := firstDedup (pySplit text)
  if words = [] then List.replicate perms.length 0
  else
    let wordHashes := words.map (fun w => md5w w % minhashMod)
    perms.map (fun ab => listMin (wordHashes.map (fun h => (ab.1 * h + ab.2) % minhashMod)))

/-- The pairs `(random.randint(1, 1000000), random.randint(0, 1000000))`
can produce. -/
def validPermB (ab : ℕ × ℕ) : Bool :=
  decide (1 ≤ ab.1) && decide (ab.1 ≤ 1000000) && decide (ab.2 ≤ 1000000)

set_option maxRecDepth 4000 in
/-- C9 counterexample: the MinHash signature is not a function of the text
alone.  `_generate_permutations` draws from the unseeded global RNG; the two
K=128 permutation lists below are both within `randint`'s ranges, and the two
resulting preprocessor instances give different signatures to the same
one-word text (under any word hash; shown at an explicit one). -/
theorem minhash_instances_disagree :
    (List.replicate 128 ((1 : ℕ), (0 : ℕ))).length = 128 ∧
      (List.replicate 128 ((1 : ℕ), (1 : ℕ))).length = 128 ∧
      (List.replicate 128 ((1 : ℕ), (0 : ℕ))).all validPermB = true ∧
      (List.replicate 128 ((1 : ℕ), (1 : ℕ))).all validPermB = true ∧
      computeMinhash (List.replicate 128 ((1 : ℕ), (0 : ℕ))) (fun _ => 0) "w" ≠
        computeMinhash (List.replicate 128 ((1 : ℕ), (1 : ℕ))) (fun _ => 0) "w" := by
  decide

theorem mem_firstDedupAux (x : String) :
    ∀ (l : List String) (seen : List String),
      x ∈ firstDedupAux seen l ↔ x ∈ l ∧ x ∉ seen := by
  intro l
  induction l with
  | nil => intro seen; simp [firstDedupAux]
  | cons y ys ih =>
      intro seen
      unfold firstDedupAux
      split
      · next hy =>
          rw [ih seen]
          constructor
          · exact fun ⟨h1, h2⟩ => ⟨List.mem_cons_of_mem _ h1, h2⟩
          · rintro ⟨h1, h2⟩
            rcases List.mem_cons.mp h1 with rfl | h3
            · exact absurd hy h2
            · exact ⟨h3, h2⟩
      · next hy =>
          constructor
          · intro h
            rcases List.mem_cons.mp h with rfl | h2
            · exact ⟨List.mem_cons_self _ _, hy⟩
            · rw [ih (y :: seen)] at h2
              exact ⟨List.mem_cons_of_mem _ h2.1,
                fun hs => h2.2 (List.mem_cons_of_mem _ hs)⟩
          · rintro ⟨h1, h2⟩
            by_cases hxy : x = y
            · exact hxy ▸ List.mem_cons_self _ _
            · rcases List.mem_cons.mp h1 with rfl | h3
              · exact absurd rfl hxy
              · refine List.mem_cons_of_mem _ ?_
                rw [ih (y :: seen)]
                exact ⟨h3, fun hs => (List.mem_cons.mp hs).elim hxy h2⟩

theorem mem_firstDedup (x : String) (l : List String) :
    x ∈ firstDedup l ↔ x ∈ l := by
  unfold firstDedup
  rw [mem_firstDedupAux]
  simp

theorem foldlMin_le (xs : List ℕ) :
    ∀ x, xs.foldl min x ≤ x ∧ ∀ y ∈ xs, xs.foldl min x ≤ y := by
  induction xs with
  | nil => intro x; exact ⟨le_refl x, fun y hy => absurd hy (List.not_mem_nil y)⟩
  | cons z zs ih =>
      intro x
      rw [List.foldl_cons]
      obtain ⟨h1, h2⟩ := ih (min x z)
      refine ⟨le_trans h1 (min_le_left x z), ?_⟩
      intro y hy
      rcases List.mem_cons.mp hy with rfl | h3
      · exact le_trans h1 (min_le_right x y)
      · exact h2 y h3

theorem foldlMin_mem (xs : List ℕ) : ∀ x, xs.foldl min x ∈ x :: xs := by
  induction xs with
  | nil => intro x; exact List.mem_cons_self _ _
  | cons z zs ih =>
      intro x
      rw [List.foldl_cons]
      have h := ih (min x z)
      rcases List.mem_cons.mp h with h1 | h2
      · rcases min_choice x z with hm | hm
        · rw [h1, hm]; exact List.mem_cons_self _ _
        · rw [h1, hm]; exact List.mem_cons_of_mem _ (List.mem_cons_self _ _)
      · exact List.mem_cons_of_mem _ (List.mem_cons_of_mem _ h2)

theorem listMin_eq_of_memEquiv (l1 l2 : List ℕ) (h1 : l1 ≠ []) (h2 : l2 ≠ [])
    (h : ∀ x, x ∈ l1 ↔ x ∈ l2) : listMin l1 = listMin l2 := by
  match l1, l2 with
  | x1 :: xs1, x2 :: xs2 =>
    have hm1 : listMin (x1 :: xs1) ∈ x1 :: xs1 := foldlMin_mem xs1 x1
    have hm2 : listMin (x2 :: xs2) ∈ x2 :: xs2 := foldlMin_mem xs2 x2
    have hle1 : ∀ y ∈ x1 :: xs1, listMin (x1 :: xs1) ≤ y := by
      intro y hy
      rcases List.mem_cons.mp hy with rfl | h3
      · exact (foldlMin_le xs1 y).1
      · exact (foldlMin_le xs1 x1).2 y h3
    have hle2 : ∀ y ∈ x2 :: xs2, listMin (x2 :: xs2) ≤ y := by
      intro y hy
      rcases List.mem_cons.mp hy with rfl | h3
      · exact (foldlMin_le xs2 y).1
      · exact (foldlMin_le xs2 x2).2 y h3
    exact le_antisymm (hle1 _ ((h _).mpr hm2)) (hle2 _ ((h _).mp hm1))

/-- C9 (amended): the MinHash signature is a deterministic function of the
instance's drawn permutation list together with the set of whitespace tokens
of the text: any two texts with the same token set receive the same
signature from the same instance.  (Across instances the permutations are
drawn unseeded, so signatures generally differ — see the accompanying
counterexample.) -/
theorem minhash_tokenset_deterministic (perms : List (ℕ × ℕ)) (md5w : String → ℕ)
    (t1 t2 : String)
    (hsub1 : ∀ w ∈ pySplit t1, w ∈ pySplit t2)
    (hsub2 : ∀ w ∈ pySplit t2, w ∈ pySplit t1) :
    computeMinhash perms md5w t1 = computeMinhash perms md5w t2 := by
  have hset : ∀ w, w ∈ firstDedup (pySplit t1) ↔ w ∈ firstDedup (pySplit t2) := by
    intro w
    rw [mem_firstDedup, mem_firstDedup]
    exact ⟨hsub1 w, hsub2 w⟩
  unfold computeMinhash
  by_cases hnil : firstDedup (pySplit t1) = []
  · have hnil2 : firstDedup (pySplit t2) = [] := by
      rw [List.eq_nil_iff_forall_not_mem] at hnil ⊢
      exact fun w hw => hnil w ((hset w).mpr hw)
    rw [if_pos hnil, if_pos hnil2]
  · have hnil2 : firstDedup (pySplit t2) ≠ [] := by
      intro hc
      rw [List.eq_nil_iff_forall_not_mem] at hc
      rw [List.eq_nil_iff_forall_not_mem] at hnil
      push_neg at hnil
      obtain ⟨w, hw⟩ := hnil
      exact hc w ((hset w).mp hw)
    rw [if_neg hnil, if_neg hnil2]
    refine List.map_congr_left ?_
    intro ab _
    refine listMin_eq_of_memEquiv _ _ ?_ ?_ ?_
    · simp only [ne_eq, List.map_eq_nil_iff]
      exact fun h => hnil (by simpa using h)
    · simp only [ne_eq, List.map_eq_nil_iff]
      exact fun h => hnil2 (by simpa using h)
    · intro x
      simp only [List.mem_map]
      constructor
      · rintro ⟨h0, ⟨w, hw, rfl⟩, rfl⟩
        exact ⟨md5w w % minhashMod, ⟨w, (hset w).mp hw, rfl⟩, rfl⟩
      · rintro ⟨h0, ⟨w, hw, rfl⟩, rfl⟩
        exact ⟨md5w w % minhashMod, ⟨w, (hset w).mpr hw, rfl⟩, rfl⟩

theorem minhash_tokenset_deterministic_witness :
    computeMinhash [(3, 5)] (fun w => w.length) "x y" =
      computeMinhash [(3, 5)] (fun w => w.length) "y x  y" :=
  minhash_tokenset_deterministic [(3, 5)] (fun w => w.length) "x y" "y x  y"
    (by decide) (by decide)

/-! ## Job engine (`KGService._build_kg_async` and `_update_progress`)

The job is modelled as the sequence of writes it performs on the task state:
each `_update_progress(task_id, progress, status, message, stage)` call is an
`upd` event (it writes the in-memory map entry and the Task row identically),
and the final block `task.kg_id = kg_id; task.status = "completed"` is a
`setTaskKg` event (Task row only; the in-memory map has no `kg_id` field at
all).  `BuildParams` enumerates the branch points of `_build_kg_async`: per
file whether parsing yields text, for each looped stage the iteration at
which the strategy raises (`none` = no failure; an index `≥` the text count
also means no failure), and flags for the remaining stages.  Interpolated
counts inside messages are abbreviated to their constant prefixes; only
non-emptiness of messages matters to the claims. -/

inductive TStatus where
  | pending
  | processing
  | completed
  | failed
deriving Repr, DecidableEq

/-- One `_update_progress` write (memory map entry and Task row fields). -/
structure TaskUpd where
  progress : ℕ
  status : TStatus
  message : String
  stage : String
deriving Repr, DecidableEq

/-- One observable task-state write of the job. -/
inductive BuildEv where
  | upd (u : TaskUpd)
  | setTaskKg
deriving Repr, DecidableEq

/-- Branch points of `_build_kg_async`. -/
structure BuildParams where
  files : List (String × Bool)
  preprocessFailAt : Option ℕ
  extractFailAt : Option ℕ
  alignFails : Bool
  relationFailAt : Option ℕ
  enableCompletion : Bool
  completionFails : Bool
  persistFails : Bool
  enableVisualization : Bool
  visFails : Bool
  finalDbFails : Bool

def mkUpd (p : ℕ) (st : TStatus) (msg stage : String) : BuildEv :=
  BuildEv.upd ⟨p, st, msg, stage⟩

/-- Per-iteration progress writes of a looped stage:
`base + int(span * (i + 1) / m)` for the completed iterations. -/
def loopUpds (base span m count : ℕ) (stage msg : String) : List BuildEv :=
  (List.range count).map (fun i =>
    mkUpd (base + span * (i + 1) / m) TStatus.processing msg stage)

/-- Iteration at which a looped stage raises, when inside the loop range. -/
def failCount (failAt : Option ℕ) (m : ℕ) : Option ℕ :=
  match failAt with
  | some k => if k < m then some k else none
  | none => none

/-- Writes of one looped `try` stage of `_build_kg_async`: the per-iteration
updates, then either the stage-end update (success, `processing`) or the
`except` update (failure, `failed`) — both at the stage-end progress. -/
def stageEvents (base span m : ℕ) (failAt : Option ℕ)
    (loopStage loopMsg okMsg okStage failMsg failStage : String) :
    List BuildEv × Bool :=
  match failCount failAt m with
  | some k => (loopUpds base span m k loopStage loopMsg ++
      [mkUpd (base + span) TStatus.failed failMsg failStage], false)
  | none => (loopUpds base span m m loopStage loopMsg ++
      [mkUpd (base + span) TStatus.processing okMsg okStage], true)

/-- A `return` after a failed stage: later writes happen only on success. -/
def andThen (s : List BuildEv × Bool) (rest : List BuildEv) : List BuildEv :=
  s.1 ++ if s.2 then rest else []

/-- Alignment stage (single update at 50, fatal on failure). -/
def alignEvents (alignFails : Bool) : List BuildEv × Bool :=
  if alignFails then ([mkUpd 50 TStatus.failed "实体对齐失败" "实体对齐失败"], false)
  else ([mkUpd 50 TStatus.processing "完成实体对齐，准备关系抽取" "实体对齐完成"], true)

/-- Completion stage: non-fatal, always one `processing` update at 75. -/
def completionEvents (enable fails : Bool) : List BuildEv :=
  if enable then
    if fails then [mkUpd 75 TStatus.processing "知识补全失败，使用原始关系" "知识补全跳过"]
    else [mkUpd 75 TStatus.processing "知识补全完成" "知识补全完成"]
  else [mkUpd 75 TStatus.processing "未启用知识补全，使用原始关系" "知识补全跳过"]

/-- Persist stage (fatal on failure, update at 90 either way). -/
def persistEvents (fails : Bool) : List BuildEv × Bool :=
  if fails then ([mkUpd 90 TStatus.failed "保存到Neo4j失败" "存储到数据库失败"], false)
  else ([mkUpd 90 TStatus.processing "已保存实体和关系到Neo4j" "存储到数据库完成"], true)

/-- Visualization stage: non-fatal, always one `processing` update at 95. -/
def visEvents (enable fails : Bool) : List BuildEv :=
  if enable then
    if fails then [mkUpd 95 TStatus.processing "可视化处理失败，不影响知识图谱核心功能" "可视化处理跳过"]
    else [mkUpd 95 TStatus.processing "可视化处理完成（生成图谱预览）" "可视化处理完成"]
  else [mkUpd 95 TStatus.processing "未启用可视化，跳过该步骤" "可视化处理跳过"]

/-- Final block: the `completed` update at 100, then — in a separate `try`
that may fail and roll back — the Task-row `kg_id` assignment. -/
def finalEvents (finalDbFails : Bool) : List BuildEv :=
  mkUpd 100 TStatus.completed "知识图谱构建成功" "完成" ::
    (if finalDbFails then [] else [BuildEv.setTaskKg])

/-- The write sequence of `_build_kg_async` on the branch selected by `P`:
the start update at 5; one parse update per listed file; then either the
zero-valid-files failure at 100, or the stage pipeline with the progress
budget 15/25/40/50/65/75/90/95/100 of the source. -/
def buildTrace (P : BuildParams) : List BuildEv :=
  let n := P.files.length
  let m := (P.files.filter (fun f => f.2)).length
  mkUpd 5 TStatus.processing "开始处理任务，准备解析文件" "初始化" ::
    (loopUpds 5 10 n n "文件解析" "正在解析文件" ++
      (if m = 0 then
        [mkUpd 100 TStatus.failed "所有文件解析失败或不存在" "文件解析失败"]
       else
        mkUpd 15 TStatus.processing "成功解析文件，准备预处理" "文件解析完成" ::
          andThen (stageEvents 15 10 m P.preprocessFailAt "数据预处理" "正在预处理文本"
              "所有文本预处理完成，准备实体抽取" "数据预处理完成" "数据预处理失败" "数据预处理失败")
            (andThen (stageEvents 25 15 m P.extractFailAt "实体抽取" "正在抽取实体"
                "实体抽取完成，准备对齐" "实体抽取完成" "实体抽取失败" "实体抽取失败")
              (andThen (alignEvents P.alignFails)
                (andThen (stageEvents 50 15 m P.relationFailAt "关系抽取" "正在抽取关系"
                    "关系抽取完成" "关系抽取完成" "关系抽取失败" "关系抽取失败")
                  (completionEvents P.enableCompletion P.completionFails ++
                    andThen (persistEvents P.persistFails)
                      (visEvents P.enableVisualization P.visFails ++
                        finalEvents P.finalDbFails)))))))

/-- Progress values written by `_update_progress`, in order. -/
def progressList (evs : List BuildEv) : List ℕ :=
  evs.filterMap (fun ev => match ev with
    | BuildEv.upd u => some u.progress
    | BuildEv.setTaskKg => none)

/-- The `_update_progress` writes, in order. -/
def updsOf (evs : List BuildEv) : List TaskUpd :=
  evs.filterMap (fun ev => match ev with
    | BuildEv.upd u => some u
    | BuildEv.setTaskKg => none)

/-- Durable Task row (the fields the job writes). -/
structure TaskRow where
  progress : ℕ
  status : TStatus
  message : String
  stage : String
  kgId : Option String
deriving Repr, DecidableEq

/-- Effect of one event on the Task row. -/
def applyEv (kg : String) (row : TaskRow) : BuildEv → TaskRow
  | BuildEv.upd u => ⟨u.progress, u.status, u.message, u.stage, row.kgId⟩
  | BuildEv.setTaskKg => { row with kgId := some kg, status := TStatus.completed }

/-- Task row as created by `create_knowledge_graph`. -/
def initRow : TaskRow := ⟨0, TStatus.pending, "任务已提交，等待处理", "初始化", none⟩

/-- Task row after a prefix of the job's writes. -/
def rowAfter (kg : String) (evs : List BuildEv) : TaskRow :=
  evs.foldl (applyEv kg) initRow

/-- A monotone progress segment with all values in `[lo, hi]`. -/
def SegOK (lo hi : ℕ) (l : List ℕ) : Prop :=
  List.Chain' (· ≤ ·) l ∧ ∀ x ∈ l, lo ≤ x ∧ x ≤ hi

theorem segOK_nil (lo hi : ℕ) : SegOK lo hi [] :=
  ⟨List.chain'_nil, fun x hx => absurd hx (List.not_mem_nil x)⟩

theorem segOK_single (lo hi p : ℕ) (h1 : lo ≤ p) (h2 : p ≤ hi) : SegOK lo hi [p] := by
  refine ⟨List.chain'_singleton p, ?_⟩
  intro x hx
  rw [List.mem_singleton.mp hx]
  exact ⟨h1, h2⟩

theorem segOK_mono (lo hi lo2 hi2 : ℕ) (l : List ℕ) (h : SegOK lo hi l)
    (hlo : lo2 ≤ lo) (hhi : hi ≤ hi2) : SegOK lo2 hi2 l := by
  refine ⟨h.1, ?_⟩
  intro x hx
  obtain ⟨h1, h2⟩ := h.2 x hx
  omega

theorem segOK_append (lo1 hi1 lo2 hi2 : ℕ) (l1 l2 : List ℕ)
    (h1 : SegOK lo1 hi1 l1) (h2 : SegOK lo2 hi2 l2)
    (h12 : hi1 ≤ lo2) (h0 : lo1 ≤ lo2) (hh : hi1 ≤ hi2) :
    SegOK lo1 hi2 (l1 ++ l2) := by
  constructor
  · refine List.Chain'.append h1.1 h2.1 ?_
    intro x hx y hy
    obtain ⟨hg, hxeq⟩ := List.mem_getLast?_eq_getLast hx
    have hx1 : x ∈ l1 := hxeq ▸ List.getLast_mem hg
    have hy1 : y ∈ l2 := List.mem_of_mem_head? hy
    have hb1 := h1.2 x hx1
    have hb2 := h2.2 y hy1
    omega
  · intro x hx
    rcases List.mem_append.mp hx with h | h
    · have := h1.2 x h; omega
    · have := h2.2 x h; omega

theorem segOK_cons (lo hi p : ℕ) (l : List ℕ) (hp : lo ≤ p)
    (h : SegOK p hi l) (hph : p ≤ hi) : SegOK lo hi (p :: l) := by
  rw [← List.singleton_append]
  exact segOK_append lo p p hi [p] l (segOK_single lo p p hp (le_refl p)) h
    (le_refl p) hp (le_trans hph (le_refl hi))

theorem progressList_nil : progressList [] = [] := rfl

theorem progressList_append (l1 l2 : List BuildEv) :
    progressList (l1 ++ l2) = progressList l1 ++ progressList l2 :=
  List.filterMap_append _ _ _

theorem progressList_cons_upd (u : TaskUpd) (evs : List BuildEv) :
    progressList (BuildEv.upd u :: evs) = u.progress :: progressList evs := rfl

theorem progressList_map_mkUpd (g : ℕ → ℕ) (st : TStatus) (msg stage : String) :
    ∀ l : List ℕ, progressList (l.map (fun i => mkUpd (g i) st msg stage)) = l.map g := by
  intro l
  induction l with
  | nil => rfl
  | cons a l ih =>
      simp only [List.map_cons]
      rw [show mkUpd (g a) st msg stage = BuildEv.upd ⟨g a, st, msg, stage⟩ from rfl,
        progressList_cons_upd, ih]

theorem progressList_loopUpds (base span m count : ℕ) (stage msg : String) :
    progressList (loopUpds base span m count stage msg) =
      (List.range count).map (fun i => base + span * (i + 1) / m) :=
  progressList_map_mkUpd _ _ _ _ _

theorem segOK_rangeMap (base span m count : ℕ) (hcm : count ≤ m) :
    SegOK base (base + span)
      ((List.range count).map (fun i => base + span * (i + 1) / m)) := by
  constructor
  · refine List.Pairwise.chain' ?_
    refine List.Pairwise.map _ ?_ (List.pairwise_lt_range count)
    intro a b hab
    have hdiv : span * (a + 1) / m ≤ span * (b + 1) / m :=
      Nat.div_le_div_right (Nat.mul_le_mul_left span (by omega))
    exact Nat.add_le_add_left hdiv base
  · intro x hx
    obtain ⟨i, hi, rfl⟩ := List.mem_map.mp hx
    have hir := List.mem_range.mp hi
    have hub : span * (i + 1) / m ≤ span := by
      rcases Nat.eq_zero_or_pos m with hm | hm
      · subst hm; simp
      · have h1 : span * (i + 1) ≤ span * m :=
          Nat.mul_le_mul_left span (by omega)
        have h2 : span * (i + 1) / m ≤ span * m / m := Nat.div_le_div_right h1
        rwa [Nat.mul_div_cancel span hm] at h2
    exact ⟨Nat.le_add_right _ _, Nat.add_le_add_left hub base⟩

theorem segOK_loopUpds (base span m count : ℕ) (stage msg : String) (hcm : count ≤ m) :
    SegOK base (base + span) (progressList (loopUpds base span m count stage msg)) := by
  rw [progressList_loopUpds]
  exact segOK_rangeMap base span m count hcm

theorem segOK_stageEvents (base span m : ℕ) (failAt : Option ℕ)
    (s1 s2 s3 s4 s5 s6 : String) :
    SegOK base (base + span)
      (progressList (stageEvents base span m failAt s1 s2 s3 s4 s5 s6).1) := by
  unfold stageEvents
  cases hfc : failCount failAt m with
  | some k =>
      have hk : k ≤ m := by
        unfold failCount at hfc
        cases failAt with
        | none => cases hfc
        | some k2 =>
            dsimp only at hfc
            by_cases h : k2 < m
            · rw [if_pos h] at hfc
              cases hfc
              omega
            · rw [if_neg h] at hfc; cases hfc
      dsimp only
      rw [progressList_append]
      exact segOK_append base (base + span) (base + span) (base + span) _ _
        (segOK_loopUpds base span m k s1 s2 hk)
        (segOK_single (base + span) (base + span) (base + span) (le_refl _) (le_refl _))
        (le_refl _) (Nat.le_add_right _ _) (le_refl _)
  | none =>
      dsimp only
      rw [progressList_append]
      exact segOK_append base (base + span) (base + span) (base + span) _ _
        (segOK_loopUpds base span m m s1 s2 (le_refl m))
        (segOK_single (base + span) (base + span) (base + span) (le_refl _) (le_refl _))
        (le_refl _) (Nat.le_add_right _ _) (le_refl _)

theorem segOK_andThen (s : List BuildEv × Bool) (rest : List BuildEv)
    (lo1 hi1 lo2 hi2 : ℕ)
    (h1 : SegOK lo1 hi1 (progressList s.1)) (h2 : SegOK lo2 hi2 (progressList rest))
    (h12 : hi1 ≤ lo2) (h0 : lo1 ≤ lo2) (hh : hi1 ≤ hi2) :
    SegOK lo1 hi2 (progressList (andThen s rest)) := by
  unfold andThen
  rw [progressList_append]
  split
  · exact segOK_append lo1 hi1 lo2 hi2 _ _ h1 h2 h12 h0 hh
  · rw [progressList_nil, List.append_nil]
    exact segOK_mono lo1 hi1 lo1 hi2 _ h1 (le_refl _) hh

theorem segOK_alignEvents (b : Bool) : SegOK 50 50 (progressList (alignEvents b).1) := by
  unfold alignEvents
  split <;> exact segOK_single 50 50 50 (le_refl _) (le_refl _)

theorem segOK_completionEvents (e f : Bool) :
    SegOK 75 75 (progressList (completionEvents e f)) := by
  unfold completionEvents
  split
  · split <;> exact segOK_single 75 75 75 (le_refl _) (le_refl _)
  · exact segOK_single 75 75 75 (le_refl _) (le_refl _)

theorem segOK_persistEvents (b : Bool) : SegOK 90 90 (progressList (persistEvents b).1) := by
  unfold persistEvents
  split <;> exact segOK_single 90 90 90 (le_refl _) (le_refl _)

theorem segOK_visEvents (e f : Bool) : SegOK 95 95 (progressList (visEvents e f)) := by
  unfold visEvents
  split
  · split <;> exact segOK_single 95 95 95 (le_refl _) (le_refl _)
  · exact segOK_single 95 95 95 (le_refl _) (le_refl _)

theorem segOK_finalEvents (b : Bool) : SegOK 100 100 (progressList (finalEvents b)) := by
  unfold finalEvents
  split
  · exact segOK_single 100 100 100 (le_refl _) (le_refl _)
  · rw [show progressList (mkUpd 100 TStatus.completed "知识图谱构建成功" "完成" ::
        [BuildEv.setTaskKg]) = [100] from rfl]
    exact segOK_single 100 100 100 (le_refl _) (le_refl _)

theorem segOK_buildTrace (P : BuildParams) : SegOK 5 100 (progressList (buildTrace P)) := by
  unfold buildTrace
  have htail : SegOK 90 100
      (progressList (andThen (persistEvents P.persistFails)
        (visEvents P.enableVisualization P.visFails ++ finalEvents P.finalDbFails))) := by
    refine segOK_andThen _ _ 90 90 95 100 (segOK_persistEvents _) ?_ (by omega) (by omega)
      (by omega)
    rw [progressList_append]
    exact segOK_append 95 95 100 100 _ _ (segOK_visEvents _ _) (segOK_finalEvents _)
      (by omega) (by omega) (by omega)
  have hcomp : SegOK 75 100
      (progressList (completionEvents P.enableCompletion P.completionFails ++
        andThen (persistEvents P.persistFails)
          (visEvents P.enableVisualization P.visFails ++ finalEvents P.finalDbFails))) := by
    rw [progressList_append]
    exact segOK_append 75 75 90 100 _ _ (segOK_completionEvents _ _) htail
      (by omega) (by omega) (by omega)
  have hrel : SegOK 50 100 (progressList (andThen (stageEvents 50 15
      ((P.files.filter (fun f => f.2)).length) P.relationFailAt "关系抽取" "正在抽取关系"
      "关系抽取完成" "关系抽取完成" "关系抽取失败" "关系抽取失败")
      (completionEvents P.enableCompletion P.completionFails ++
        andThen (persistEvents P.persistFails)
          (visEvents P.enableVisualization P.visFails ++ finalEvents P.finalDbFails)))) :=
    segOK_andThen _ _ 50 65 75 100 (segOK_stageEvents 50 15 _ _ _ _ _ _ _ _) hcomp
      (by omega) (by omega) (by omega)
  have halign := segOK_andThen (alignEvents P.alignFails) _ 50 50 50 100
    (segOK_alignEvents _) hrel (by omega) (by omega) (by omega)
  have hext := segOK_andThen (stageEvents 25 15
      ((P.files.filter (fun f => f.2)).length) P.extractFailAt "实体抽取" "正在抽取实体"
      "实体抽取完成，准备对齐" "实体抽取完成" "实体抽取失败" "实体抽取失败") _ 25 40 50 100
    (segOK_stageEvents 25 15 _ _ _ _ _ _ _ _) halign (by omega) (by omega) (by omega)
  have hpre := segOK_andThen (stageEvents 15 10
      ((P.files.filter (fun f => f.2)).length) P.preprocessFailAt "数据预处理" "正在预处理文本"
      "所有文本预处理完成，准备实体抽取" "数据预处理完成" "数据预处理失败" "数据预处理失败") _ 15 25 25 100
    (segOK_stageEvents 15 10 _ _ _ _ _ _ _ _) hext (by omega) (by omega) (by omega)
  have hbranch : SegOK 15 100 (progressList
      (if (P.files.filter (fun f => f.2)).length = 0 then
        [mkUpd 100 TStatus.failed "所有文件解析失败或不存在" "文件解析失败"]
       else
        mkUpd 15 TStatus.processing "成功解析文件，准备预处理" "文件解析完成" ::
          andThen (stageEvents 15 10 ((P.files.filter (fun f => f.2)).length)
              P.preprocessFailAt "数据预处理" "正在预处理文本"
              "所有文本预处理完成，准备实体抽取" "数据预处理完成" "数据预处理失败" "数据预处理失败")
            (andThen (stageEvents 25 15 ((P.files.filter (fun f => f.2)).length)
                P.extractFailAt "实体抽取" "正在抽取实体"
                "实体抽取完成，准备对齐" "实体抽取完成" "实体抽取失败" "实体抽取失败")
              (andThen (alignEvents P.alignFails)
                (andThen (stageEvents 50 15 ((P.files.filter (fun f => f.2)).length)
                    P.relationFailAt "关系抽取" "正在抽取关系"
                    "关系抽取完成" "关系抽取完成" "关系抽取失败" "关系抽取失败")
                  (completionEvents P.enableCompletion P.completionFails ++
                    andThen (persistEvents P.persistFails)
                      (visEvents P.enableVisualization P.visFails ++
                        finalEvents P.finalDbFails))))))) := by
    split
    · exact segOK_single 15 100 100 (by omega) (le_refl _)
    · rw [show progressList (mkUpd 15 TStatus.processing "成功解析文件，准备预处理"
          "文件解析完成" :: _) = 15 :: _ from progressList_cons_upd _ _]
      exact segOK_cons 15 100 15 _ (le_refl _) hpre (by omega)
  rw [show progressList (mkUpd 5 TStatus.processing "开始处理任务，准备解析文件"
      "初始化" :: _) = 5 :: _ from progressList_cons_upd _ _]
  refine segOK_cons 5 100 5 _ (le_refl _) ?_ (by omega)
  rw [progressList_append]
  exact segOK_append 5 15 15 100 _ _
    (segOK_loopUpds 5 10 P.files.length P.files.length _ _ (le_refl _)) hbranch
    (le_refl _) (by omega) (by omega)

/-- C4: progress monotonicity.  For every branch of `_build_kg_async` —
success and every modelled failure path — the sequence of progress values
written to the in-memory map and the Task row (starting from the initial 0
of task creation) is monotonically non-decreasing. -/
theorem build_progress_monotone (P : BuildParams) :
    List.Chain' (· ≤ ·) (0 :: progressList (buildTrace P)) := by
  have hseg := segOK_buildTrace P
  refine List.chain'_cons'.mpr ⟨?_, hseg.1⟩
  intro y _
  exact Nat.zero_le y

/-- Parameter set of a job whose every stage succeeds (one valid file,
completion and visualization disabled). -/
def wBuildP : BuildParams :=
  ⟨[("f1.txt", true)], none, none, false, none, false, false, false, false, false, false⟩

/-- The all-success job whose final Task/KnowledgeGraph row update raises
(the commit is rolled back). -/
def wBuildPFail : BuildParams := { wBuildP with finalDbFails := true }

/-- C2 (code bug): the job writes `status = completed, progress = 100` to the
Task row (and the in-memory map) while the row's `kg_id` is still null; the
`kg_id` is assigned only by the separate final commit, strictly after the
transition to `completed` — and never, if that commit fails.  (The in-memory
progress entry has no `kg_id` field at any point.) -/
theorem task_completed_before_kg_id :
    (rowAfter "kg1" ((buildTrace wBuildP).dropLast)).status = TStatus.completed ∧
      (rowAfter "kg1" ((buildTrace wBuildP).dropLast)).progress = 100 ∧
      (rowAfter "kg1" ((buildTrace wBuildP).dropLast)).kgId = none ∧
      (buildTrace wBuildP).getLast? = some BuildEv.setTaskKg ∧
      (rowAfter "kg1" (buildTrace wBuildP)).kgId = some "kg1" ∧
      (rowAfter "kg1" (buildTrace wBuildPFail)).status = TStatus.completed ∧
      (rowAfter "kg1" (buildTrace wBuildPFail)).progress = 100 ∧
      (rowAfter "kg1" (buildTrace wBuildPFail)).kgId = none := by
  decide

/-- Two valid files whose preprocessing raises at the first text. -/
def wBuildPre : BuildParams :=
  ⟨[("a", true), ("b", true)], some 0, none, false, none, false, false, false,
    false, false, false⟩

/-- One file that fails to parse (the zero-valid-files path). -/
def wBuildParse : BuildParams :=
  ⟨[("a", false)], none, none, false, none, false, false, false, false, false, false⟩

/-- C5 counterexample: the failure transition changes the progress number.
On a preprocessing failure the job's last write before the failure records
progress 15, and the failure write records the stage end 25; on the
zero-valid-files parse path the last write records 15 and the failure write
records 100.  The claim demands the failure write leave progress at its last
value. -/
theorem build_failure_changes_progress_counterexample :
    progressList (buildTrace wBuildPre) = [5, 10, 15, 15, 25] ∧
      (buildTrace wBuildPre).getLast? =
        some (mkUpd 25 TStatus.failed "数据预处理失败" "数据预处理失败") ∧
      progressList (buildTrace wBuildParse) = [5, 15, 100] ∧
      (buildTrace wBuildParse).getLast? =
        some (mkUpd 100 TStatus.failed "所有文件解析失败或不存在" "文件解析失败") ∧
      (25 : ℕ) ≠ 15 ∧ (100 : ℕ) ≠ 15 := by
  decide

/-- Failed progress writes carry a non-empty message. -/
def failMsgsOK (evs : List BuildEv) : Prop :=
  ∀ u ∈ updsOf evs, u.status = TStatus.failed → u.message ≠ ""

theorem updsOf_append (l1 l2 : List BuildEv) :
    updsOf (l1 ++ l2) = updsOf l1 ++ updsOf l2 :=
  List.filterMap_append _ _ _

theorem failMsgsOK_append (l1 l2 : List BuildEv)
    (h1 : failMsgsOK l1) (h2 : failMsgsOK l2) : failMsgsOK (l1 ++ l2) := by
  intro u hu
  rw [updsOf_append] at hu
  rcases List.mem_append.mp hu with h | h
  · exact h1 u h
  · exact h2 u h

theorem updsOf_map_mkUpd (g : ℕ → ℕ) (st : TStatus) (msg stage : String) :
    ∀ l : List ℕ, updsOf (l.map (fun i => mkUpd (g i) st msg stage)) =
      l.map (fun i => (⟨g i, st, msg, stage⟩ : TaskUpd)) := by
  intro l
  induction l with
  | nil => rfl
  | cons a l ih =>
      simp only [List.map_cons]
      rw [show updsOf (mkUpd (g a) st msg stage :: _) =
        (⟨g a, st, msg, stage⟩ : TaskUpd) :: updsOf _ from rfl, ih]

theorem failMsgsOK_loopUpds (base span m count : ℕ) (stage msg : String) :
    failMsgsOK (loopUpds base span m count stage msg) := by
  intro u hu hst
  unfold loopUpds at hu
  rw [updsOf_map_mkUpd] at hu
  obtain ⟨i, _, rfl⟩ := List.mem_map.mp hu
  cases hst

theorem failMsgsOK_single (p : ℕ) (st : TStatus) (msg stage : String)
    (h : msg ≠ "") : failMsgsOK [mkUpd p st msg stage] := by
  intro u hu hst
  rw [show updsOf [mkUpd p st msg stage] = [⟨p, st, msg, stage⟩] from rfl] at hu
  rw [List.mem_singleton.mp hu]
  exact h

theorem failMsgsOK_andThen (s : List BuildEv × Bool) (rest : List BuildEv)
    (h1 : failMsgsOK s.1) (h2 : failMsgsOK rest) : failMsgsOK (andThen s rest) := by
  unfold andThen
  split
  · exact failMsgsOK_append _ _ h1 h2
  · exact failMsgsOK_append _ _ h1 (fun u hu => absurd hu (by simp [updsOf]))

theorem failMsgsOK_stageEvents (base span m : ℕ) (failAt : Option ℕ)
    (s1 s2 s3 s4 s6 : String) (s5 : String) (h5 : s5 ≠ "") :
    failMsgsOK (stageEvents base span m failAt s1 s2 s3 s4 s5 s6).1 := by
  unfold stageEvents
  cases failCount failAt m with
  | some k =>
      exact failMsgsOK_append _ _ (failMsgsOK_loopUpds _ _ _ _ _ _)
        (failMsgsOK_single _ _ _ _ h5)
  | none =>
      refine failMsgsOK_append _ _ (failMsgsOK_loopUpds _ _ _ _ _ _) ?_
      intro u hu hst
      rw [show updsOf [mkUpd (base + span) TStatus.processing s3 s4] =
        [⟨base + span, TStatus.processing, s3, s4⟩] from rfl] at hu
      rw [List.mem_singleton.mp hu] at hst
      cases hst

theorem failMsgsOK_buildTrace (P : BuildParams) : failMsgsOK (buildTrace P) := by
  unfold buildTrace
  have htail : failMsgsOK (andThen (persistEvents P.persistFails)
      (visEvents P.enableVisualization P.visFails ++ finalEvents P.finalDbFails)) := by
    refine failMsgsOK_andThen _ _ ?_ (failMsgsOK_append _ _ ?_ ?_)
    · unfold persistEvents
      split
      · exact failMsgsOK_single _ _ _ _ (by decide)
      · exact failMsgsOK_single _ _ _ _ (by decide)
    · unfold visEvents
      split
      · split <;> exact failMsgsOK_single _ _ _ _ (by decide)
      · exact failMsgsOK_single _ _ _ _ (by decide)
    · unfold finalEvents
      intro u hu hst
      split at hu
      · rw [show updsOf [mkUpd 100 TStatus.completed "知识图谱构建成功" "完成"] =
          [⟨100, TStatus.completed, "知识图谱构建成功", "完成"⟩] from rfl] at hu
        rw [List.mem_singleton.mp hu] at hst
        cases hst
      · rw [show updsOf (mkUpd 100 TStatus.completed "知识图谱构建成功" "完成" ::
          [BuildEv.setTaskKg]) =
          [⟨100, TStatus.completed, "知识图谱构建成功", "完成"⟩] from rfl] at hu
        rw [List.mem_singleton.mp hu] at hst
        cases hst
  have hrest : failMsgsOK (andThen (stageEvents 15 10
      ((P.files.filter (fun f => f.2)).length) P.preprocessFailAt "数据预处理" "正在预处理文本"
      "所有文本预处理完成，准备实体抽取" "数据预处理完成" "数据预处理失败" "数据预处理失败")
      (andThen (stageEvents 25 15 ((P.files.filter (fun f => f.2)).length)
          P.extractFailAt "实体抽取" "正在抽取实体"
          "实体抽取完成，准备对齐" "实体抽取完成" "实体抽取失败" "实体抽取失败")
        (andThen (alignEvents P.alignFails)
          (andThen (stageEvents 50 15 ((P.files.filter (fun f => f.2)).length)
              P.relationFailAt "关系抽取" "正在抽取关系"
              "关系抽取完成" "关系抽取完成" "关系抽取失败" "关系抽取失败")
            (completionEvents P.enableCompletion P.completionFails ++
              andThen (persistEvents P.persistFails)
                (visEvents P.enableVisualization P.visFails ++
                  finalEvents P.finalDbFails)))))) := by
    refine failMsgsOK_andThen _ _ (failMsgsOK_stageEvents _ _ _ _ _ _ _ _ _ _ (by decide)) ?_
    refine failMsgsOK_andThen _ _ (failMsgsOK_stageEvents _ _ _ _ _ _ _ _ _ _ (by decide)) ?_
    refine failMsgsOK_andThen _ _ ?_ ?_
    · unfold alignEvents
      split <;> exact failMsgsOK_single _ _ _ _ (by decide)
    refine failMsgsOK_andThen _ _ (failMsgsOK_stageEvents _ _ _ _ _ _ _ _ _ _ (by decide)) ?_
    refine failMsgsOK_append _ _ ?_ htail
    unfold completionEvents
    split
    · split <;> exact failMsgsOK_single _ _ _ _ (by decide)
    · exact failMsgsOK_single _ _ _ _ (by decide)
  intro u hu hst
  rw [show updsOf (mkUpd 5 TStatus.processing "开始处理任务，准备解析文件" "初始化" :: _) =
    (⟨5, TStatus.processing, "开始处理任务，准备解析文件", "初始化"⟩ : TaskUpd) :: updsOf _
    from rfl] at hu
  rcases List.mem_cons.mp hu with rfl | hu2
  · cases hst
  · rw [updsOf_append] at hu2
    rcases List.mem_append.mp hu2 with h | h
    · exact failMsgsOK_loopUpds 5 10 _ _ _ _ u h hst
    · revert h
      split
      · intro h
        exact failMsgsOK_single 100 TStatus.failed _ _ (by decide) u h hst
      · intro h
        rw [show updsOf (mkUpd 15 TStatus.processing "成功解析文件，准备预处理"
            "文件解析完成" :: _) =
          (⟨15, TStatus.processing, "成功解析文件，准备预处理", "文件解析完成"⟩ : TaskUpd) ::
            updsOf _ from rfl] at h
        rcases List.mem_cons.mp h with rfl | h3
        · cases hst
        · exact hrest u h3 hst

/-- C5 (amended): every fatal-path failure write carries the status `failed`
together with a non-empty message, and the progress number it records is the
failing stage's end value (100 on the zero-valid-files path), which never
decreases the recorded progress but generally exceeds the last value rather
than equalling it. -/
theorem build_failure_amended (P : BuildParams) :
    (∀ u ∈ updsOf (buildTrace P), u.status = TStatus.failed → u.message ≠ "") ∧
      List.Chain' (· ≤ ·) (0 :: progressList (buildTrace P)) := by
  refine ⟨failMsgsOK_buildTrace P, ?_⟩
  have hseg := segOK_buildTrace P
  refine List.chain'_cons'.mpr ⟨?_, hseg.1⟩
  intro y _
  exact Nat.zero_le y

theorem build_failure_amended_witness :
    (⟨25, TStatus.failed, "数据预处理失败", "数据预处理失败"⟩ : TaskUpd).message ≠ "" :=
  (build_failure_amended wBuildPre).1
    ⟨25, TStatus.failed, "数据预处理失败", "数据预处理失败"⟩ (by decide) (by decide)

end KG
